import Mathlib

/-!
# Verification of `text/text.py` (TextBlob's bundled `pattern` text toolkit)

A shallow embedding of the rule-based shallow-processing toolkit in
`src/text/text.py`: the tagged-string codec, the shallow-parser collapse
step, the named-entity regular expressions, the universal tagset mapper,
the part-of-speech defaulting pass, the morphological rule engine, the
tokenizer, the sentiment scorer and the lazy-container pattern.

Modelling conventions:
* Python strings are `List Char` (or `String` when only compared atomically);
  character classes (`isupper`, `isalpha`, ...) are modelled over ASCII,
  which covers every character the embedded tables and claims mention.
* Python floats are `ℚ`; the scorer only multiplies, clamps and divides,
  so the field structure is faithful wherever no rounding occurs.
* Code paths that raise in Python (`ZeroDivisionError`, `IndexError`,
  `NameError`) are modelled with `Option`: `none` means "raises".
* Scanning loops that are not structurally recursive take an explicit
  fuel argument; call sites pass a fuel that is provably larger than the
  number of iterations the Python loop can perform.
-/

/-- The apostrophe character (U+0027). -/
def apos : Char := Char.ofNat 39

/-- The double-quote character (U+0022). -/
def dquote : Char := Char.ofNat 34

/-- The backquote character (U+0060). -/
def bquote : Char := Char.ofNat 96

/-- Boolean test that `p` is a leading run of `s` (Python `str.startswith`). -/
def pfx : List Char → List Char → Bool
  | [], _ => true
  | _ :: _, [] => false
  | a :: as, b :: bs => a == b && pfx as bs

/-- Boolean test that `p` is a trailing run of `s` (Python `str.endswith`). -/
def sfx (p s : List Char) : Bool :=
  pfx p.reverse s.reverse

/-- Boolean substring test (Python `x in s` on strings). -/
def hasSub (p : List Char) : List Char → Bool
  | [] => pfx p []
  | c :: rest => pfx p (c :: rest) || hasSub p rest

/-- The 7-character escape sequence `&slash;` used for literal `/` in words. -/
def slashEsc : List Char := "&slash;".data

/-- `str.replace("/", "&slash;")`: expand every `/` to `&slash;`
(line 1171 of `text.py`, and line 1145 for the parser's collapse step). -/
def escapeField : List Char → List Char
  | [] => []
  | c :: rest => (if c = '/' then slashEsc else [c]) ++ escapeField rest

/-- Fuel-driven scan for `str.replace("&slash;", "/")` (line 1186): replace
every occurrence of `&slash;` by `/`, scanning left to right without overlap. -/
def unescGo : Nat → List Char → List Char
  | _, [] => []
  | 0, s => s
  | fuel + 1, c :: rest =>
    if pfx slashEsc (c :: rest) then '/' :: unescGo fuel (rest.drop 6)
    else c :: unescGo fuel rest

/-- `str.replace("&slash;", "/")`; one unit of fuel per character suffices
because every step of the scan consumes at least one character. -/
def unescape (s : List Char) : List Char :=
  unescGo s.length s

theorem pfx_append_self (p r : List Char) : pfx p (p ++ r) = true := by
  induction p with
  | nil => rfl
  | cons a as ih => simp [pfx, ih]

theorem pfx_cons_iff (a : Char) (as b : List Char) (c : Char) :
    pfx (a :: as) (c :: b) = true ↔ a = c ∧ pfx as b = true := by
  simp [pfx, Bool.and_eq_true, beq_iff_eq]

/-- Characters that `escapeField` can emit that are not characters of the
input field are all characters of `&slash;`. -/
theorem mem_escapeField_of_not_escape {c : Char} (hc : c ∉ slashEsc) :
    ∀ f : List Char, c ∈ escapeField f → c ∈ f := by
  intro f
  induction f with
  | nil => simp [escapeField]
  | cons d rest ih =>
    intro hmem
    simp only [escapeField, List.mem_append] at hmem
    rcases hmem with h | h
    · by_cases hd : d = '/'
      · rw [if_pos hd] at h; exact absurd h hc
      · rw [if_neg hd] at h
        simp only [List.mem_singleton] at h
        simp [h]
    · exact List.mem_cons_of_mem _ (ih h)

/-- The escaped form of a field never contains a literal `/`. -/
theorem slash_not_mem_escapeField : ∀ f : List Char, '/' ∉ escapeField f := by
  intro f
  induction f with
  | nil => simp [escapeField]
  | cons d rest ih =>
    simp only [escapeField, List.mem_append]
    rintro (h | h)
    · by_cases hd : d = '/'
      · rw [if_pos hd] at h
        revert h; decide
      · rw [if_neg hd] at h
        simp only [List.mem_singleton] at h
        exact hd h.symm
    · exact ih h

theorem escapeField_eq_nil_iff (f : List Char) : escapeField f = [] ↔ f = [] := by
  cases f with
  | nil => simp [escapeField]
  | cons c rest =>
    simp only [escapeField]
    constructor
    · intro h
      by_cases hc : c = '/'
      · rw [if_pos hc] at h; simp [slashEsc] at h
      · rw [if_neg hc] at h; simp at h
    · intro h; exact absurd h (by simp)

/-- A prefix of the escaped field that avoids `&` and `/` is already a
prefix of the raw field. -/
theorem pfx_of_pfx_escapeField :
    ∀ (p f : List Char), (∀ ch ∈ p, ch ≠ '&' ∧ ch ≠ '/') →
      pfx p (escapeField f) = true → pfx p f = true := by
  intro p
  induction p with
  | nil => intro f _ _; rfl
  | cons a as ih =>
    intro f hp hpfx
    cases f with
    | nil => simp [escapeField, pfx] at hpfx
    | cons c rest =>
      by_cases hc : c = '/'
      · subst hc
        simp only [escapeField, if_pos rfl] at hpfx
        have : a = '&' := by
          have := (pfx_cons_iff a as _ '&').1 hpfx
          exact this.1
        exact absurd this (hp a (List.mem_cons_self a as)).1
      · simp only [escapeField, if_neg hc, List.singleton_append] at hpfx
        obtain ⟨hac, hrest⟩ := (pfx_cons_iff a as _ c).1 hpfx
        refine (pfx_cons_iff a as rest c).2 ⟨hac, ?_⟩
        exact ih rest (fun ch hch => hp ch (List.mem_cons_of_mem _ hch)) hrest

/-- Unescaping inverts escaping on every field that does not already
contain the literal text `&slash;`. -/
theorem unescGo_escapeField :
    ∀ (f : List Char) (fuel : Nat), (escapeField f).length ≤ fuel →
      hasSub slashEsc f = false → unescGo fuel (escapeField f) = f := by
  intro f
  induction f with
  | nil => intro fuel _ _; cases fuel <;> rfl
  | cons c rest ih =>
    intro fuel hfuel hsub
    have hsub' : hasSub slashEsc rest = false := by
      have := hsub
      simp only [hasSub, Bool.or_eq_false_iff] at this
      exact this.2
    have hpfxf : pfx slashEsc (c :: rest) = false := by
      have := hsub
      simp only [hasSub, Bool.or_eq_false_iff] at this
      exact this.1
    by_cases hc : c = '/'
    · subst hc
      have hesc : escapeField ('/' :: rest) = slashEsc ++ escapeField rest := by
        simp [escapeField]
      rw [hesc] at hfuel ⊢
      have hlen : (slashEsc ++ escapeField rest).length = 7 + (escapeField rest).length := by
        simp [slashEsc]; omega
      cases fuel with
      | zero => omega
      | succ fnext =>
        show unescGo (fnext + 1)
            ('&' :: ("slash;".data ++ escapeField rest)) = '/' :: rest
        rw [unescGo]
        rw [if_pos (by exact pfx_append_self slashEsc (escapeField rest))]
        have hdrop : ("slash;".data ++ escapeField rest).drop 6 = escapeField rest := rfl
        rw [hdrop]
        have : (escapeField rest).length ≤ fnext := by omega
        rw [ih fnext this hsub']
    · have hesc : escapeField (c :: rest) = c :: escapeField rest := by
        simp [escapeField, if_neg hc]
      rw [hesc] at hfuel ⊢
      cases fuel with
      | zero => simp at hfuel
      | succ fnext =>
        rw [unescGo]
        have hnp : pfx slashEsc (c :: escapeField rest) = false := by
          by_contra hne
          have htrue : pfx slashEsc (c :: escapeField rest) = true := by
            revert hne; cases pfx slashEsc (c :: escapeField rest) <;> simp
          have h1 : '&' = c ∧ pfx "slash;".data (escapeField rest) = true := by
            have := (pfx_cons_iff '&' "slash;".data (escapeField rest) c).1 htrue
            exact this
          have h2 : pfx "slash;".data rest = true := by
            refine pfx_of_pfx_escapeField _ rest ?_ h1.2
            decide
          have h3 : pfx slashEsc (c :: rest) = true := by
            refine (pfx_cons_iff '&' "slash;".data rest c).2 ⟨h1.1, h2⟩
          rw [h3] at hpfxf; exact Bool.noConfusion hpfxf
        rw [if_neg (by simp [hnp])]
        have : (escapeField rest).length ≤ fnext := by
          simp only [List.length_cons] at hfuel; omega
        rw [ih fnext this hsub']

theorem unescape_escapeField (f : List Char) (h : hasSub slashEsc f = false) :
    unescape (escapeField f) = f :=
  unescGo_escapeField f (escapeField f).length (Nat.le_refl _) h

/-! ## The tagged-string codec (`TaggedString`, lines 1160-1188)

`TaggedString.__new__` given a nested sentence/token/field list escapes
every field, joins fields with `/`, tokens with a space and sentences with
a newline; `TaggedString.split(TOKENS)` is the inverse, returning `[]` for
the empty string. -/

/-- Serialize one token: escape each field and join the fields with `/`. -/
def tokCollapse (tok : List (List Char)) : List Char :=
  [('/' : Char)].intercalate (tok.map escapeField)

/-- Serialize one sentence: join the serialized tokens with a space. -/
def senCollapse (sen : List (List (List Char))) : List Char :=
  [(' ' : Char)].intercalate (sen.map tokCollapse)

/-- `TaggedString.__new__` on a nested sentence/token/field structure:
join the serialized sentences with newlines (lines 1171-1172). -/
def tsEncode (s : List (List (List (List Char)))) : List Char :=
  [('\n' : Char)].intercalate (s.map senCollapse)

/-- `TaggedString.split(TOKENS)` (lines 1178-1188): the empty string splits
to `[]`; otherwise split on newline, space and `/`, unescaping each field. -/
def tsSplit (v : List Char) : List (List (List (List Char))) :=
  if v.length = 0 then []
  else (v.splitOn '\n').map fun sen =>
    (sen.splitOn ' ').map fun tok => (tok.splitOn '/').map unescape

theorem not_mem_intercalate {c sep : Char} (hc : c ≠ sep) :
    ∀ ls : List (List Char), (∀ l ∈ ls, c ∉ l) → c ∉ [sep].intercalate ls := by
  intro ls
  induction ls with
  | nil => intro _; simp [List.intercalate]
  | cons a t ih =>
    intro h
    cases t with
    | nil =>
      simpa [List.intercalate] using h a (List.mem_cons_self a [])
    | cons b t' =>
      have hstep : [sep].intercalate (a :: b :: t') =
          a ++ sep :: [sep].intercalate (b :: t') := by
        simp [List.intercalate, List.intersperse_cons_cons]
      rw [hstep]
      simp only [List.mem_append, List.mem_cons, not_or]
      refine ⟨h a (List.mem_cons_self a _), hc, ?_⟩
      exact ih fun l hl => h l (List.mem_cons_of_mem _ hl)

theorem intercalate_two (sep : Char) (a b : List Char) (t : List (List Char)) :
    [sep].intercalate (a :: b :: t) = a ++ sep :: [sep].intercalate (b :: t) := by
  simp [List.intercalate, List.intersperse_cons_cons]

theorem intercalate_singleton' (sep : Char) (a : List Char) :
    [sep].intercalate [a] = a := by
  simp [List.intercalate]

theorem intercalate_eq_nil_iff (sep : Char) (ls : List (List Char)) :
    [sep].intercalate ls = [] ↔ ls = [] ∨ ls = [[]] := by
  cases ls with
  | nil => simp [List.intercalate]
  | cons a t =>
    cases t with
    | nil => simp [intercalate_singleton']
    | cons b t' =>
      rw [intercalate_two]
      constructor
      · intro h; exact absurd h (by cases a <;> simp)
      · rintro (h | h) <;> simp at h

/-- Auxiliary: mapping a function that fixes every member is the identity. -/
theorem map_id_of_mem {α : Type} {g : α → α} :
    ∀ l : List α, (∀ x ∈ l, g x = x) → l.map g = l := by
  intro l
  induction l with
  | nil => intro _; rfl
  | cons a t ih =>
    intro h
    simp only [List.map_cons, h a (List.mem_cons_self a t),
      ih fun x hx => h x (List.mem_cons_of_mem _ hx)]

theorem splitOn_tokCollapse (tok : List (List Char)) (htok : tok ≠ []) :
    (tokCollapse tok).splitOn '/' = tok.map escapeField := by
  refine List.splitOn_intercalate _ '/' ?_ ?_
  · intro l hl
    obtain ⟨f, _, rfl⟩ := List.mem_map.1 hl
    exact slash_not_mem_escapeField f
  · simpa using htok

theorem char_not_mem_tokCollapse {c : Char} (hc : c ≠ '/') (hcs : c ∉ slashEsc)
    (tok : List (List Char)) (hf : ∀ f ∈ tok, c ∉ f) : c ∉ tokCollapse tok := by
  refine not_mem_intercalate hc _ ?_
  intro l hl
  obtain ⟨f, hfmem, rfl⟩ := List.mem_map.1 hl
  intro hmem
  exact hf f hfmem (mem_escapeField_of_not_escape hcs f hmem)

theorem splitOn_senCollapse (sen : List (List (List Char))) (hsen : sen ≠ [])
    (hf : ∀ tok ∈ sen, ∀ f ∈ tok, ' ' ∉ f) :
    (senCollapse sen).splitOn ' ' = sen.map tokCollapse := by
  refine List.splitOn_intercalate _ ' ' ?_ ?_
  · intro l hl
    obtain ⟨tok, htokmem, rfl⟩ := List.mem_map.1 hl
    exact char_not_mem_tokCollapse (by decide) (by decide) tok (hf tok htokmem)
  · simpa using hsen

theorem char_not_mem_senCollapse {c : Char} (hc : c ≠ ' ') (hc2 : c ≠ '/')
    (hcs : c ∉ slashEsc) (sen : List (List (List Char)))
    (hf : ∀ tok ∈ sen, ∀ f ∈ tok, c ∉ f) : c ∉ senCollapse sen := by
  refine not_mem_intercalate hc _ ?_
  intro l hl
  obtain ⟨tok, htokmem, rfl⟩ := List.mem_map.1 hl
  exact char_not_mem_tokCollapse hc2 hcs tok (hf tok htokmem)

theorem splitOn_tsEncode (s : List (List (List (List Char)))) (hs : s ≠ [])
    (hf : ∀ sen ∈ s, ∀ tok ∈ sen, ∀ f ∈ tok, '\n' ∉ f) :
    (tsEncode s).splitOn '\n' = s.map senCollapse := by
  refine List.splitOn_intercalate _ '\n' ?_ ?_
  · intro l hl
    obtain ⟨sen, hsenmem, rfl⟩ := List.mem_map.1 hl
    exact char_not_mem_senCollapse (by decide) (by decide) (by decide) sen (hf sen hsenmem)
  · simpa using hs

theorem tokCollapse_eq_nil_iff (tok : List (List Char)) (htok : tok ≠ []) :
    tokCollapse tok = [] ↔ tok = [[]] := by
  rw [tokCollapse, intercalate_eq_nil_iff]
  constructor
  · rintro (h | h)
    · simp at h; exact absurd h htok
    · cases tok with
      | nil => exact absurd rfl htok
      | cons f rest =>
        simp only [List.map_cons, List.cons.injEq] at h
        have hf : f = [] := (escapeField_eq_nil_iff f).1 h.1
        have hrest : rest = [] := by simpa using h.2
        simp [hf, hrest]
  · rintro rfl
    right
    simp [escapeField]

/-- **C2, counterexample.** The structure with one sentence holding one token
holding one empty field satisfies every condition of the claim (nonempty
sentence, nonempty token, the field has no space, newline or `&slash;`), yet
its encoding is the empty string, which `split` maps to `[]`, not back to the
original structure. -/
theorem C2_roundtrip_counterexample :
    (∀ sen ∈ ([[[([] : List Char)]]] : List (List (List (List Char)))), sen ≠ []) ∧
    (∀ sen ∈ ([[[([] : List Char)]]] : List (List (List (List Char)))),
      ∀ tok ∈ sen, tok ≠ []) ∧
    (∀ sen ∈ ([[[([] : List Char)]]] : List (List (List (List Char)))),
      ∀ tok ∈ sen, ∀ f ∈ tok, ' ' ∉ f ∧ '\n' ∉ f ∧ hasSub slashEsc f = false) ∧
    tsEncode [[[([] : List Char)]]] = [] ∧
    tsSplit (tsEncode [[[([] : List Char)]]]) = [] ∧
    tsSplit (tsEncode [[[([] : List Char)]]]) ≠ [[[([] : List Char)]]] := by
  refine ⟨by decide, by decide, by decide, rfl, rfl, by decide⟩

/-- **C2, amended.** Encoding a nested sentence/token/field structure with
`TaggedString` construction and splitting it back with `split(TOKENS)` is the
identity, provided every sentence has a token, every token has a field, no
field contains a space, a newline or the text `&slash;` (fields may contain
literal `/`), and the structure is not the single-sentence, single-token,
single-empty-field structure (whose encoding is the empty string); the empty
structure round-trips to the empty sequence. -/
theorem C2_roundtrip_amended (s : List (List (List (List Char))))
    (h1 : ∀ sen ∈ s, sen ≠ [])
    (h2 : ∀ sen ∈ s, ∀ tok ∈ sen, tok ≠ [])
    (h3 : ∀ sen ∈ s, ∀ tok ∈ sen, ∀ f ∈ tok,
      ' ' ∉ f ∧ '\n' ∉ f ∧ hasSub slashEsc f = false)
    (h4 : s ≠ [[[[]]]]) :
    tsSplit (tsEncode s) = s := by
  cases hs : s with
  | nil => subst hs; rfl
  | cons sen0 srest =>
    subst hs
    -- The encoding is nonempty.
    have hne : tsEncode (sen0 :: srest) ≠ [] := by
      intro hnil
      rw [tsEncode] at hnil
      rcases (intercalate_eq_nil_iff _ _).1 hnil with h | h
      · simp at h
      · -- A single sentence whose serialization is empty.
        simp only [List.map_cons, List.cons.injEq] at h
        have hrest : srest = [] := by
          have := h.2
          simpa using this
        have hsen0 : senCollapse sen0 = [] := h.1
        rw [senCollapse] at hsen0
        rcases (intercalate_eq_nil_iff _ _).1 hsen0 with h' | h'
        · have : sen0 = [] := by simpa using h'
          exact h1 sen0 (List.mem_cons_self _ _) this
        · cases sen0 with
          | nil => exact h1 [] (List.mem_cons_self _ _) rfl
          | cons tok0 trest =>
            simp only [List.map_cons, List.cons.injEq] at h'
            have htrest : trest = [] := by simpa using h'.2
            have htok0 : tokCollapse tok0 = [] := h'.1
            have htok0ne : tok0 ≠ [] :=
              h2 _ (List.mem_cons_self _ _) tok0 (List.mem_cons_self _ _)
            have : tok0 = [[]] := (tokCollapse_eq_nil_iff tok0 htok0ne).1 htok0
            apply h4
            simp [this, htrest, hrest]
    -- Unfold the split and cancel layer by layer.
    rw [tsSplit, if_neg (by simpa using hne)]
    rw [splitOn_tsEncode _ (by simp) (fun sen hsen tok htok f hf => (h3 sen hsen tok htok f hf).2.1)]
    rw [List.map_map]
    refine map_id_of_mem _ ?_
    intro sen hsen
    have hsplit : (senCollapse sen).splitOn ' ' = sen.map tokCollapse :=
      splitOn_senCollapse sen (h1 sen hsen)
        (fun tok htok f hf => (h3 sen hsen tok htok f hf).1)
    simp only [Function.comp]
    rw [hsplit, List.map_map]
    refine map_id_of_mem _ ?_
    intro tok htok
    simp only [Function.comp]
    rw [splitOn_tokCollapse tok (h2 sen hsen tok htok), List.map_map]
    refine map_id_of_mem _ ?_
    intro f hf
    simp only [Function.comp]
    exact unescape_escapeField f (h3 sen hsen tok htok f hf).2.2

/-- **C2, witness.** A concrete two-sentence structure whose first word
contains a literal `/` round-trips exactly. -/
theorem C2_roundtrip_witness :
    tsSplit (tsEncode [[["a/b".data, "NN".data], ["sat".data]], [["x".data]]]) =
      [[["a/b".data, "NN".data], ["sat".data]], [["x".data]]] :=
  C2_roundtrip_amended _ (by decide) (by decide) (by decide) (by decide)

/-! ## The shallow-parser collapse step (`Parser.parse`, lines 1086-1150)

The per-token pipeline of `Parser.parse`: the tagger appends a
part-of-speech field whenever any of tags/chunks/relations/lemmata is
requested (line 1110), the external chunker plus preposition tagger run when
chunks or relations is requested (line 1115) and — per the claim's stated
assumption on the external delegates — append exactly the fields `chunk` and
`preposition`, the external labeler runs when relations is requested (line
1118) and appends one `relation` field, and `find_lemmata` (line 1084)
appends the lowercased word.  The collapse step (lines 1143-1148) escapes
`/` in the word field only and joins the fields with `/`.  The declared
format list is built at lines 1131-1139. -/

/-- Python `str.lower` on a single character, over ASCII. -/
def pyToLower (c : Char) : Char :=
  if 65 ≤ c.toNat ∧ c.toNat ≤ 90 then Char.ofNat (c.toNat + 32) else c

/-- The list of fields a token carries when `Parser.parse` reaches the
collapse step, for abstract word/tag/chunk/preposition/relation values. -/
def parsePipeTok (tags chunks relations lemmata : Bool)
    (w pos c pp rel : List Char) : List (List Char) :=
  let t := if tags || chunks || relations || lemmata then [w, pos] else [w]
  let t := if chunks || relations then t ++ [c, pp] else t
  let t := if relations then t ++ [rel] else t
  if lemmata then t ++ [w.map pyToLower] else t

/-- The format list built by `Parser.parse` (lines 1131-1139). -/
def parseFormat (tags chunks relations lemmata : Bool) : List String :=
  ["word"] ++ (if tags then ["part-of-speech"] else [])
    ++ (if chunks then ["chunk", "preposition"] else [])
    ++ (if relations then ["relation"] else [])
    ++ (if lemmata then ["lemma"] else [])

/-- The collapse step for one token (lines 1143-1146): escape `/` in the
word (field 0) only, then join all fields with `/`. -/
def parseCollapseTok (tok : List (List Char)) : List Char :=
  match tok with
  | [] => []
  | w :: rest => [('/' : Char)].intercalate (escapeField w :: rest)

/-- **C1, counterexample.** With `relations=True` and `chunks=False` the
chunker still runs (line 1115 tests `chunks or relations`), so the collapsed
token has five slash-separated fields, but the format list only receives
`"chunk","preposition"` when `chunks` itself is true (line 1134) — it has
length two and contains neither `"chunk"` nor `"preposition"`, refuting both
parts of the claim. -/
theorem C1_parse_columns_counterexample :
    ((parseCollapseTok (parsePipeTok false false true false
        "cat".data "NN".data "B-NP".data "O".data "SBJ".data)).splitOn '/').length = 5 ∧
    (parseFormat false false true false).length = 2 ∧
    ((parseCollapseTok (parsePipeTok false false true false
        "cat".data "NN".data "B-NP".data "O".data "SBJ".data)).splitOn '/').length ≠
      (parseFormat false false true false).length ∧
    "chunk" ∉ parseFormat false false true false ∧
    "preposition" ∉ parseFormat false false true false ∧
    "part-of-speech" ∉ parseFormat false true false false := by
  refine ⟨by decide, by decide, by decide, by decide, by decide, by decide⟩

theorem parseCollapse_splitOn (w : List Char) (rest : List (List Char))
    (h : ∀ f ∈ rest, '/' ∉ f) :
    (parseCollapseTok (w :: rest)).splitOn '/' = escapeField w :: rest := by
  show ([('/' : Char)].intercalate (escapeField w :: rest)).splitOn '/' = _
  refine List.splitOn_intercalate _ '/' ?_ (by simp)
  intro l hl
  rcases List.mem_cons.1 hl with rfl | hl
  · exact slash_not_mem_escapeField w
  · exact h l hl

/-- **C1, amended.** The collapsed token has exactly as many slash-separated
fields as the declared format list, provided the flags are consistent (tags
is requested whenever any of chunks/relations/lemmata is, and chunks is
requested whenever relations is), the tag and the externally added fields
contain no `/`, and — when lemmata is requested — the lowercased word
contains no `/` (the lemma field, unlike the word field, is not
slash-escaped).  The format list contains `"chunk"`/`"preposition"` exactly
when chunks is requested and `"part-of-speech"` exactly when tags is. -/
theorem C1_parse_columns_amended (tags chunks relations lemmata : Bool)
    (w pos c pp rel : List Char)
    (h1 : (chunks || relations || lemmata) = true → tags = true)
    (h2 : relations = true → chunks = true)
    (hpos : '/' ∉ pos) (hc : '/' ∉ c) (hpp : '/' ∉ pp) (hrel : '/' ∉ rel)
    (hw : lemmata = true → '/' ∉ w.map pyToLower) :
    ((parseCollapseTok (parsePipeTok tags chunks relations lemmata
        w pos c pp rel)).splitOn '/').length
      = (parseFormat tags chunks relations lemmata).length ∧
    ("chunk" ∈ parseFormat tags chunks relations lemmata ↔ chunks = true) ∧
    ("preposition" ∈ parseFormat tags chunks relations lemmata ↔ chunks = true) ∧
    ("part-of-speech" ∈ parseFormat tags chunks relations lemmata ↔ tags = true) := by
  cases tags with
  | false =>
    have hcf : chunks = false := by
      cases hcv : chunks
      · rfl
      · exact absurd (h1 (by simp [hcv])) (by simp)
    have hrf : relations = false := by
      cases hrv : relations
      · rfl
      · exact absurd (h1 (by simp [hrv])) (by simp)
    have hlf : lemmata = false := by
      cases hlv : lemmata
      · rfl
      · exact absurd (h1 (by simp [hlv])) (by simp)
    subst hcf hrf hlf
    have hpt : parsePipeTok false false false false w pos c pp rel = [w] := by
      simp [parsePipeTok]
    rw [hpt, parseCollapse_splitOn w [] (by simp)]
    refine ⟨by simp [parseFormat], by simp [parseFormat], by simp [parseFormat],
      by simp [parseFormat]⟩
  | true =>
    cases relations with
    | true =>
      have hct : chunks = true := h2 rfl
      subst hct
      cases lemmata with
      | false =>
        have hpt : parsePipeTok true true true false w pos c pp rel =
            w :: [pos, c, pp, rel] := by simp [parsePipeTok]
        rw [hpt, parseCollapse_splitOn w [pos, c, pp, rel]
          (by intro f hf; fin_cases hf <;> assumption)]
        refine ⟨by simp [parseFormat], by simp [parseFormat], by simp [parseFormat],
          by simp [parseFormat]⟩
      | true =>
        have hpt : parsePipeTok true true true true w pos c pp rel =
            w :: [pos, c, pp, rel, w.map pyToLower] := by simp [parsePipeTok]
        rw [hpt, parseCollapse_splitOn w [pos, c, pp, rel, w.map pyToLower]
          (by intro f hf; fin_cases hf <;> first | assumption | exact hw rfl)]
        refine ⟨by simp [parseFormat], by simp [parseFormat], by simp [parseFormat],
          by simp [parseFormat]⟩
    | false =>
      cases chunks with
      | true =>
        cases lemmata with
        | false =>
          have hpt : parsePipeTok true true false false w pos c pp rel =
              w :: [pos, c, pp] := by simp [parsePipeTok]
          rw [hpt, parseCollapse_splitOn w [pos, c, pp]
            (by intro f hf; fin_cases hf <;> assumption)]
          refine ⟨by simp [parseFormat], by simp [parseFormat], by simp [parseFormat],
            by simp [parseFormat]⟩
        | true =>
          have hpt : parsePipeTok true true false true w pos c pp rel =
              w :: [pos, c, pp, w.map pyToLower] := by simp [parsePipeTok]
          rw [hpt, parseCollapse_splitOn w [pos, c, pp, w.map pyToLower]
            (by intro f hf; fin_cases hf <;> first | assumption | exact hw rfl)]
          refine ⟨by simp [parseFormat], by simp [parseFormat], by simp [parseFormat],
            by simp [parseFormat]⟩
      | false =>
        cases lemmata with
        | false =>
          have hpt : parsePipeTok true false false false w pos c pp rel =
              w :: [pos] := by simp [parsePipeTok]
          rw [hpt, parseCollapse_splitOn w [pos]
            (by intro f hf; fin_cases hf <;> assumption)]
          refine ⟨by simp [parseFormat], by simp [parseFormat], by simp [parseFormat],
            by simp [parseFormat]⟩
        | true =>
          have hpt : parsePipeTok true false false true w pos c pp rel =
              w :: [pos, w.map pyToLower] := by simp [parsePipeTok]
          rw [hpt, parseCollapse_splitOn w [pos, w.map pyToLower]
            (by intro f hf; fin_cases hf <;> first | assumption | exact hw rfl)]
          refine ⟨by simp [parseFormat], by simp [parseFormat], by simp [parseFormat],
            by simp [parseFormat]⟩

/-- **C1, witness.** The default-style configuration with all four stages
requested. -/
theorem C1_parse_columns_witness :
    ((parseCollapseTok (parsePipeTok true true true true
        "Cat".data "NN".data "B-NP".data "O".data "SBJ".data)).splitOn '/').length
      = (parseFormat true true true true).length ∧
    ("chunk" ∈ parseFormat true true true true ↔ true = true) ∧
    ("preposition" ∈ parseFormat true true true true ↔ true = true) ∧
    ("part-of-speech" ∈ parseFormat true true true true ↔ true = true) :=
  C1_parse_columns_amended true true true true
    "Cat".data "NN".data "B-NP".data "O".data "SBJ".data
    (by decide) (by decide) (by decide) (by decide) (by decide) (by decide)
    (by decide)

/-! ## The bare web-address rule (`RE_ENTITY2`, line 577; `Entities.apply`, lines 606-633)

`RE_ENTITY2 = ^www\..*?\.[com|org|net|edu|de|uk]$`.  The bracket expression
is a character class, so the final position matches one single character
from `{c,o,m,|,r,g,n,e,t,d,u,k}`.  `.` does not match a newline, and `$`
matches at the end of the string or just before one final newline. -/

/-- The characters of the class `[com|org|net|edu|de|uk]`, duplicates kept
out. -/
def entity2class : List Char :=
  ['c', 'o', 'm', '|', 'r', 'g', 'n', 'e', 't', 'd', 'u', 'k']

/-- Decide whether the reversed remainder (after the `www.` prefix) ends in
`.` plus one class character — either at the very end of the string or just
before one final newline — with the middle free of newlines (which `.`
cannot match). -/
def entity2tail (l : List Char) : Bool :=
  match l with
  | c :: d :: rest =>
    if c = '\n' then
      -- `$` matched just before a final newline.
      match rest with
      | e :: mid =>
        decide (e = '.') && decide (d ∈ entity2class) && !(decide ('\n' ∈ mid))
      | [] => false
    else
      decide (d = '.') && decide (c ∈ entity2class) && !(decide ('\n' ∈ rest))
  | _ => false

/-- `RE_ENTITY2.match(w)` as a decidable predicate on the token. -/
def reEntity2 (s : List Char) : Bool :=
  pfx "www.".data s && entity2tail (s.drop 4).reverse

/-- **C5, counterexample.** The five-character token `www.c` starts with
`www.` and ends with `.` followed by the class character `c` (the prefix and
the suffix overlap on the same `.`), so the claim says the rule matches it —
but the regex needs a further `\.` plus class character after consuming the
`www.` prefix, so it does not match. -/
theorem C5_entity2_counterexample :
    pfx "www.".data "www.c".data = true ∧
    sfx ['.', 'c'] "www.c".data = true ∧ 'c' ∈ entity2class ∧
    reEntity2 "www.c".data = false := by
  refine ⟨by decide, by decide, by decide, by decide⟩

/-- **C5, amended.** On newline-free tokens the rule matches exactly when the
token starts with `www.` and the remainder *after that prefix* ends with `.`
followed by exactly one character from `{c,o,m,|,r,g,n,e,t,d,u,k}`; in
particular `www.domain.com` is not matched, `www.domain.c` is matched, and
the overlapping `www.c` is not. -/
theorem C5_entity2_amended (s : List Char) (hnl : '\n' ∉ s) :
    (reEntity2 s = true ↔
      (pfx "www.".data s = true ∧
        ∃ mid c, s.drop 4 = mid ++ ['.', c] ∧ c ∈ entity2class)) ∧
    reEntity2 "www.domain.com".data = false ∧
    reEntity2 "www.domain.c".data = true ∧
    reEntity2 "www.c".data = false := by
  refine ⟨?_, by decide, by decide, by decide⟩
  have hnl4 : '\n' ∉ s.drop 4 := fun h => hnl (List.mem_of_mem_drop h)
  constructor
  · intro h
    rw [reEntity2, Bool.and_eq_true] at h
    refine ⟨h.1, ?_⟩
    have ht := h.2
    rcases hrev : (s.drop 4).reverse with _ | ⟨c, _ | ⟨d, rest⟩⟩
    · rw [hrev] at ht; simp [entity2tail] at ht
    · rw [hrev] at ht; simp [entity2tail] at ht
    · rw [hrev] at ht
      have hcnl : c ≠ '\n' := by
        intro hceq
        apply hnl4
        rw [← List.mem_reverse, hrev, hceq]
        exact List.mem_cons_self _ _
      simp only [entity2tail, if_neg hcnl, Bool.and_eq_true, decide_eq_true_eq,
        Bool.not_eq_true', decide_eq_false_iff_not] at ht
      refine ⟨rest.reverse, c, ?_, ht.1.2⟩
      have hs4 : s.drop 4 = (c :: d :: rest).reverse := by
        rw [← hrev, List.reverse_reverse]
      rw [hs4, ht.1.1]
      simp
  · rintro ⟨hp, mid, c, hdrop, hcls⟩
    rw [reEntity2, Bool.and_eq_true]
    refine ⟨hp, ?_⟩
    rw [hdrop]
    have hrev : (mid ++ ['.', c]).reverse = c :: '.' :: mid.reverse := by simp
    rw [hrev]
    have hcnl : c ≠ '\n' := by
      intro hceq
      rw [hceq] at hcls
      revert hcls; decide
    simp only [entity2tail, if_neg hcnl, Bool.and_eq_true, decide_eq_true_eq,
      Bool.not_eq_true', decide_eq_false_iff_not]
    refine ⟨⟨trivial, hcls⟩, ?_⟩
    intro hmem
    apply hnl4
    rw [hdrop, List.mem_append]
    exact Or.inl (List.mem_reverse.1 hmem)

/-- **C5, witness.** The amended characterization applied at the concrete
token `www.domain.c`. -/
theorem C5_entity2_witness :
    reEntity2 "www.domain.c".data = true ↔
      (pfx "www.".data "www.domain.c".data = true ∧
        ∃ mid c, "www.domain.c".data.drop 4 = mid ++ ['.', c] ∧ c ∈ entity2class) :=
  (C5_entity2_amended "www.domain.c".data (by decide)).1

/-! ## The universal tagset mapper (`penntreebank2universal`, lines 157-186)

Universal constants (line 154-155): NOUN="NN", VERB="VB", ADJ="JJ",
ADV="RB", PRON="PR", DET="DT", PREP="PP", NUM="NO", CONJ="CJ", INTJ="UH",
PRT="PT", PUNC=".", X="X". -/

/-- `tag.split("-")[-1]`: the text after the last `-` (the whole tag when it
has no `-`). -/
def afterLastDash (tag : String) : String :=
  String.mk ((tag.data.splitOn '-').getLastD [])

/-- `penntreebank2universal(token, tag)` (lines 157-186). -/
def penntreebank2universal (token tag : String) : String × String :=
  if pfx "NNP-".data tag.data || pfx "NNPS-".data tag.data then
    (token, "NN-" ++ afterLastDash tag)
  else if tag ∈ (["NN", "NNS", "NNP", "NNPS", "NP"] : List String) then (token, "NN")
  else if tag ∈ (["MD", "VB", "VBD", "VBG", "VBN", "VBP", "VBZ"] : List String) then
    (token, "VB")
  else if tag ∈ (["JJ", "JJR", "JJS"] : List String) then (token, "JJ")
  else if tag ∈ (["RB", "RBR", "RBS", "WRB"] : List String) then (token, "RB")
  else if tag ∈ (["PRP", "PRP$", "WP", "WP$"] : List String) then (token, "PR")
  else if tag ∈ (["DT", "PDT", "WDT", "EX"] : List String) then (token, "DT")
  else if tag ∈ (["IN"] : List String) then (token, "PP")
  else if tag ∈ (["CD"] : List String) then (token, "NO")
  else if tag ∈ (["CC"] : List String) then (token, "CJ")
  else if tag ∈ (["UH"] : List String) then (token, "UH")
  else if tag ∈ (["POS", "RP", "TO"] : List String) then (token, "PT")
  else if tag ∈ (["SYM", "LS", ".", "!", "?", ",", ":", "(", ")", "\"", "#", "$"] :
      List String) then (token, ".")
  else (token, "X")

/-- Every tag of the fixed table, paired with its universal code. -/
def pennTable : List (String × String) :=
  [("NN", "NN"), ("NNS", "NN"), ("NNP", "NN"), ("NNPS", "NN"), ("NP", "NN"),
   ("MD", "VB"), ("VB", "VB"), ("VBD", "VB"), ("VBG", "VB"), ("VBN", "VB"),
   ("VBP", "VB"), ("VBZ", "VB"),
   ("JJ", "JJ"), ("JJR", "JJ"), ("JJS", "JJ"),
   ("RB", "RB"), ("RBR", "RB"), ("RBS", "RB"), ("WRB", "RB"),
   ("PRP", "PR"), ("PRP$", "PR"), ("WP", "PR"), ("WP$", "PR"),
   ("DT", "DT"), ("PDT", "DT"), ("WDT", "DT"), ("EX", "DT"),
   ("IN", "PP"), ("CD", "NO"), ("CC", "CJ"), ("UH", "UH"),
   ("POS", "PT"), ("RP", "PT"), ("TO", "PT"),
   ("SYM", "."), ("LS", "."), (".", "."), ("!", "."), ("?", "."), (",", "."),
   (":", "."), ("(", "."), (")", "."), ("\"", "."), ("#", "."), ("$", ".")]

theorem getLastD_splitOn_concat :
    ∀ (l suf : List Char), '-' ∉ suf →
      ∃ r : List (List Char), (l ++ '-' :: suf).splitOn '-' = r ++ [suf] ∧ r ≠ [] := by
  intro l
  induction l with
  | nil =>
    intro suf hsuf
    refine ⟨[[]], ?_, by simp⟩
    show (('-' :: suf).splitOnP (· == '-')) = [[]] ++ [suf]
    rw [List.splitOnP_cons]
    rw [if_pos (by simp)]
    have : suf.splitOnP (· == '-') = [suf] := by
      refine List.splitOnP_eq_single _ _ ?_
      intro y hy hbeq
      exact hsuf (by simpa using (beq_iff_eq.1 hbeq ▸ hy))
    rw [this]
    rfl
  | cons a t ih =>
    intro suf hsuf
    obtain ⟨r, hr, hrne⟩ := ih suf hsuf
    by_cases ha : a = '-'
    · subst ha
      refine ⟨[] :: r, ?_, by simp⟩
      show ((('-' :: (t ++ '-' :: suf)).splitOnP (· == '-'))) = ([] :: r) ++ [suf]
      rw [List.splitOnP_cons, if_pos (by simp)]
      rw [show (t ++ '-' :: suf).splitOnP (· == '-') = (t ++ '-' :: suf).splitOn '-' from rfl]
      rw [hr]
      rfl
    · cases r with
      | nil => exact absurd rfl hrne
      | cons r0 rtail =>
        refine ⟨(a :: r0) :: rtail, ?_, by simp⟩
        show ((a :: (t ++ '-' :: suf)).splitOnP (· == '-')) = ((a :: r0) :: rtail) ++ [suf]
        rw [List.splitOnP_cons, if_neg (by simpa using ha)]
        rw [show (t ++ '-' :: suf).splitOnP (· == '-') = (t ++ '-' :: suf).splitOn '-' from rfl]
        rw [hr]
        rfl

/-- **C6.** `penntreebank2universal` maps the token unchanged, carries every
Penn tag of the documented table to its documented universal code, maps any
tag that neither appears in the table nor begins with `NNP-`/`NNPS-` to
`X`, and maps a compound tag beginning with `NNP-` or `NNPS-` to `NN-`
followed by the text after the last `-` (so `NNP-LOC` goes to `NN-LOC`). -/
theorem C6_penn2universal (token : String) :
    (∀ p ∈ pennTable, penntreebank2universal token p.1 = (token, p.2)) ∧
    (∀ tag : String,
      pfx "NNP-".data tag.data = false → pfx "NNPS-".data tag.data = false →
      (∀ p ∈ pennTable, tag ≠ p.1) →
      penntreebank2universal token tag = (token, "X")) ∧
    (∀ pre suf : List Char,
      (pfx "NNP-".data (pre ++ '-' :: suf) = true ∨
        pfx "NNPS-".data (pre ++ '-' :: suf) = true) →
      '-' ∉ suf →
      penntreebank2universal token (String.mk (pre ++ '-' :: suf)) =
        (token, "NN-" ++ String.mk suf)) ∧
    penntreebank2universal token "NNP-LOC" = (token, "NN-LOC") := by
  refine ⟨?_, ?_, ?_, ?_⟩
  · intro p hp
    fin_cases hp <;> simp [penntreebank2universal] <;> decide
  · intro tag hp1 hp2 htab
    rw [penntreebank2universal]
    rw [if_neg (by simp [hp1, hp2])]
    have hne : ∀ s : String, s ∈ (["NN", "NNS", "NNP", "NNPS", "NP"] : List String) →
        tag ≠ s := by
      intro s hs
      exact htab ⟨s, "NN"⟩ (by fin_cases hs <;> simp [pennTable])
    rw [if_neg (by
      intro hmem
      exact hne tag hmem rfl)]
    rw [if_neg (by
      intro hmem
      refine absurd rfl (htab ⟨tag, "VB"⟩ ?_)
      fin_cases hmem <;> simp [pennTable])]
    rw [if_neg (by
      intro hmem
      refine absurd rfl (htab ⟨tag, "JJ"⟩ ?_)
      fin_cases hmem <;> simp [pennTable])]
    rw [if_neg (by
      intro hmem
      refine absurd rfl (htab ⟨tag, "RB"⟩ ?_)
      fin_cases hmem <;> simp [pennTable])]
    rw [if_neg (by
      intro hmem
      refine absurd rfl (htab ⟨tag, "PR"⟩ ?_)
      fin_cases hmem <;> simp [pennTable])]
    rw [if_neg (by
      intro hmem
      refine absurd rfl (htab ⟨tag, "DT"⟩ ?_)
      fin_cases hmem <;> simp [pennTable])]
    rw [if_neg (by
      intro hmem
      refine absurd rfl (htab ⟨tag, "PP"⟩ ?_)
      fin_cases hmem <;> simp [pennTable])]
    rw [if_neg (by
      intro hmem
      refine absurd rfl (htab ⟨tag, "NO"⟩ ?_)
      fin_cases hmem <;> simp [pennTable])]
    rw [if_neg (by
      intro hmem
      refine absurd rfl (htab ⟨tag, "CJ"⟩ ?_)
      fin_cases hmem <;> simp [pennTable])]
    rw [if_neg (by
      intro hmem
      refine absurd rfl (htab ⟨tag, "UH"⟩ ?_)
      fin_cases hmem <;> simp [pennTable])]
    rw [if_neg (by
      intro hmem
      refine absurd rfl (htab ⟨tag, "PT"⟩ ?_)
      fin_cases hmem <;> simp [pennTable])]
    rw [if_neg (by
      intro hmem
      refine absurd rfl (htab ⟨tag, "."⟩ ?_)
      fin_cases hmem <;> simp [pennTable])]
  · intro pre suf hpfx hsuf
    rw [penntreebank2universal]
    rw [if_pos (by
      rcases hpfx with h | h <;> simp [h])]
    obtain ⟨r, hr, _⟩ := getLastD_splitOn_concat pre suf hsuf
    have : afterLastDash (String.mk (pre ++ '-' :: suf)) = String.mk suf := by
      rw [afterLastDash]
      show String.mk (((pre ++ '-' :: suf).splitOn '-').getLastD []) = String.mk suf
      rw [hr, List.getLastD_concat]
    rw [this]
  · simp only [penntreebank2universal]
    rw [if_pos (by decide)]
    have h : afterLastDash "NNP-LOC" = "LOC" := by decide
    rw [h]
    rfl

/-- **C6, witness.** The general clauses of `C6_penn2universal` applied at
concrete tags: `FW` (absent from the table) maps to `X`, and the compound
`NNP-LOC` decomposes as `NNP` + `-` + `LOC`. -/
theorem C6_penn2universal_witness :
    penntreebank2universal "cat" "FW" = ("cat", "X") ∧
    penntreebank2universal "cat" (String.mk ("NNP".data ++ '-' :: "LOC".data)) =
      ("cat", "NN-" ++ String.mk "LOC".data) ∧
    penntreebank2universal "cat" "VBZ" = ("cat", "VB") := by
  obtain ⟨htab, hX, hcomp, _⟩ := C6_penn2universal "cat"
  refine ⟨hX "FW" (by decide) (by decide) (by decide), ?_, ?_⟩
  · exact hcomp "NNP".data "LOC".data (Or.inl (by decide)) (by decide)
  · exact htab ("VBZ", "VB") (by decide)

/-! ## The part-of-speech tagger (`find_tags`, lines 948-987)

`find_tags` with a plain-dictionary lexicon (the `isinstance(lexicon,
Lexicon)` branches at lines 960 and 982 not taken): a first pass looks every
token up in the lexicon — the first token additionally by its lowercased
form — and a second pass replaces each still-untagged token by the `NNP`
default (uppercase alphabetic initial, language not `"de"`), else the `CD`
default (the numeric/punctuation pattern), else the `NN` default refined by
the morphological rule function `f`.  `f` is kept abstract so that the
theorem quantifies over every refinement behaviour. -/

/-- Python `str.lower` over ASCII. -/
def pyLowerStr (s : String) : String :=
  String.mk (s.data.map pyToLower)

/-- `CD = ^[0-9\-\,\.\:\/\%\$]+$` (line 928): the characters of the class. -/
def cdClass : List Char := "0123456789-,.:/%$".data

/-- `CD.match(token)`: one or more class characters spanning the whole
token, allowing `$` to match just before one final newline. -/
def cdMatch (t : List Char) : Bool :=
  let core := if t.getLastD ' ' = '\n' then t.dropLast else t
  decide (core ≠ []) && core.all (fun c => decide (c ∈ cdClass))

/-- The `NNP`-default test of lines 970-973: the token is nonempty, its
first character is an uppercase alphabetic character, and the language is
not `"de"`. -/
def nnpCond (language : String) (tok : String) : Bool :=
  match tok.data with
  | c :: _ => c.isUpper && c.isAlpha && decide (language ≠ "de")
  | [] => false

/-- The lookup pass of lines 966-967: `lexicon.get(token, i==0 and
lexicon.get(token.lower()) or None)`; a falsy (empty) tag from the lowercase
lookup collapses to `None` as in Python. -/
def lookupPass (lexget : String → Option String) :
    Bool → List String → List (String × Option String)
  | _, [] => []
  | first, tok :: rest =>
    (tok,
      match lexget tok with
      | some t => some t
      | none =>
        if first then
          match lexget (pyLowerStr tok) with
          | some t => if t = "" then none else some t
          | none => none
        else none) :: lookupPass lexget false rest

/-- The defaulting pass of lines 968-981.  `f` receives the token paired
with the `NN` default, the already-processed previous entry (Python mutates
`tagged` in place, so `tagged[i-1]` is post-default) and the raw next entry
(`tagged[i+1]` is still pre-default). -/
def defaultPass
    (f : String × String → Option (String × String) → Option (String × Option String) →
      String × String)
    (language : String) (default : String × String × String) :
    Option (String × String) → List (String × Option String) → List (String × String)
  | _, [] => []
  | prev, (tok, lookup) :: rest =>
    let cur :=
      match lookup with
      | some t => (tok, t)
      | none =>
        if nnpCond language tok then (tok, default.2.1)
        else if cdMatch tok.data then (tok, default.2.2)
        else f (tok, default.1) prev rest.head?
    cur :: defaultPass f language default (some cur) rest

/-- `find_tags` for a plain-dictionary lexicon, with the morphological
refinement function abstracted as `f`. -/
def findTagsDict
    (lexget : String → Option String)
    (f : String × String → Option (String × String) → Option (String × Option String) →
      String × String)
    (language : String) (default : String × String × String)
    (tokens : List String) : List (String × String) :=
  defaultPass f language default none (lookupPass lexget true tokens)

/-- `_suffix_rules` (lines 930-946), the English refinement used when no
full `Lexicon` is supplied; sequential ifs, later matches overwriting. -/
def suffixRules (token : String × String) : String × String :=
  let word := token.1
  let pos := token.2
  let pos := if sfx "ing".data word.data then "VBG" else pos
  let pos := if sfx "ly".data word.data then "RB" else pos
  let pos := if sfx "s".data word.data &&
      !(sfx "is".data word.data || sfx "ous".data word.data || sfx "ss".data word.data)
    then "NNS" else pos
  let pos := if (sfx "able".data word.data || sfx "al".data word.data ||
      sfx "ful".data word.data || sfx "ible".data word.data ||
      sfx "ient".data word.data || sfx "ish".data word.data ||
      sfx "ive".data word.data || sfx "less".data word.data ||
      sfx "tic".data word.data || sfx "ous".data word.data ||
      decide ('-' ∈ word.data)) then "JJ" else pos
  let pos := if sfx "ed".data word.data then "VBN" else pos
  let pos := if (sfx "ate".data word.data || sfx "ify".data word.data ||
      sfx "ise".data word.data || sfx "ize".data word.data) then "VBP" else pos
  (word, pos)

theorem defaultPass_get_nnp
    (f : String × String → Option (String × String) → Option (String × Option String) →
      String × String)
    (language : String) (default : String × String × String) :
    ∀ (l : List (String × Option String)) (prev : Option (String × String))
      (i : Nat) (tok : String),
      l.get? i = some (tok, none) →
      ((nnpCond language tok = true →
        (defaultPass f language default prev l).get? i = some (tok, default.2.1)) ∧
       (nnpCond language tok = false → cdMatch tok.data = true →
        (defaultPass f language default prev l).get? i = some (tok, default.2.2))) := by
  intro l
  induction l with
  | nil => intro prev i tok h; simp at h
  | cons hd rest ih =>
    intro prev i tok h
    cases i with
    | zero =>
      simp only [List.get?] at h
      injection h with h1
      cases hd with
      | mk tok0 lk0 =>
        have htok : tok0 = tok := congrArg Prod.fst h1
        have hlk : lk0 = none := congrArg Prod.snd h1
        subst htok hlk
        constructor
        · intro hnnp
          simp only [defaultPass, List.get?]
          rw [if_pos hnnp]
        · intro hnnp hcd
          simp only [defaultPass, List.get?]
          rw [if_neg (by simp [hnnp]), if_pos hcd]
    | succ j =>
      simp only [List.get?] at h
      constructor
      · intro hnnp
        simp only [defaultPass, List.get?]
        exact (ih _ j tok h).1 hnnp
      · intro hnnp hcd
        simp only [defaultPass, List.get?]
        exact (ih _ j tok h).2 hnnp hcd

theorem lookupPass_get_none (lexget : String → Option String) :
    ∀ (tokens : List String) (first : Bool) (i : Nat) (tok : String),
      tokens.get? i = some tok →
      lexget tok = none →
      ((i = 0 ∧ first = true) → (match lexget (pyLowerStr tok) with
        | some t => t = ""
        | none => True)) →
      (lookupPass lexget first tokens).get? i = some (tok, none) := by
  intro tokens
  induction tokens with
  | nil => intro first i tok h; simp at h
  | cons hd rest ih =>
    intro first i tok h hlex hlow
    cases i with
    | zero =>
      simp only [List.get?] at h
      injection h with h1
      subst h1
      simp only [lookupPass, List.get?]
      rw [hlex]
      cases first with
      | false => rfl
      | true =>
        have hx := hlow ⟨rfl, rfl⟩
        cases hlo : lexget (pyLowerStr hd) with
        | none => rfl
        | some t =>
          have hx' : t = "" := by rw [hlo] at hx; exact hx
          simp [hx']
    | succ j =>
      simp only [List.get?] at h
      simp only [lookupPass, List.get?]
      exact ih false j tok h hlex (by rintro ⟨_, hft⟩; exact Bool.noConfusion hft)

/-- **C7.** For a token absent from the lexicon (the first token also by its
lowercase form), `find_tags` assigns the `NNP` default exactly when the token
is nonempty with an uppercase alphabetic first character and the language is
not `"de"`; otherwise the `CD` default when the token matches
`^[0-9\-,.:/%$]+$`; and in both cases the result does not depend on the
morphological refinement `f`, which only runs in the remaining `NN` case. -/
theorem C7_findTags_defaults
    (lexget : String → Option String)
    (f : String × String → Option (String × String) → Option (String × Option String) →
      String × String)
    (language : String) (default : String × String × String)
    (tokens : List String) (i : Nat) (tok : String)
    (htok : tokens.get? i = some tok)
    (hlex : lexget tok = none)
    (hlow : i = 0 → lexget (pyLowerStr tok) = none) :
    (nnpCond language tok = true →
      (findTagsDict lexget f language default tokens).get? i = some (tok, default.2.1)) ∧
    (nnpCond language tok = false → cdMatch tok.data = true →
      (findTagsDict lexget f language default tokens).get? i = some (tok, default.2.2)) ∧
    (∀ rest : List String, tokens = tok :: rest → i = 0 →
      nnpCond language tok = false → cdMatch tok.data = false →
      (findTagsDict lexget f language default tokens).head? =
        some (f (tok, default.1) none (lookupPass lexget false rest).head?)) := by
  have hlk : (lookupPass lexget true tokens).get? i = some (tok, none) := by
    refine lookupPass_get_none lexget tokens true i tok htok hlex ?_
    rintro ⟨h0, _⟩
    rw [hlow h0]
    trivial
  refine ⟨?_, ?_, ?_⟩
  · intro hnnp
    exact (defaultPass_get_nnp f language default _ none i tok hlk).1 hnnp
  · intro hnnp hcd
    exact (defaultPass_get_nnp f language default _ none i tok hlk).2 hnnp hcd
  · intro rest hrest hi hnnp hcd
    have hlow0 := hlow hi
    subst hrest
    simp [findTagsDict, lookupPass, hlex, hlow0, defaultPass, hnnp, hcd]

/-- **C7, witness.** With an empty lexicon and the English suffix-rule
refinement: `"Paris"` gets `NNP`, `"12:30"` gets `CD`, and `"friendly"`
falls through to the refinement (which retags it `RB`). -/
theorem C7_findTags_defaults_witness :
    (findTagsDict (fun _ => none) (fun t _ _ => suffixRules t) "en" ("NN", "NNP", "CD")
      ["Paris", "12:30"]).get? 0 = some ("Paris", "NNP") ∧
    (findTagsDict (fun _ => none) (fun t _ _ => suffixRules t) "en" ("NN", "NNP", "CD")
      ["Paris", "12:30"]).get? 1 = some ("12:30", "CD") ∧
    (findTagsDict (fun _ => none) (fun t _ _ => suffixRules t) "en" ("NN", "NNP", "CD")
      ["friendly"]).head? =
      some ((fun t (_ : Option (String × String)) (_ : Option (String × Option String)) =>
        suffixRules t) ("friendly", "NN") none
          (lookupPass (fun _ => none) false []).head?) := by
  refine ⟨?_, ?_, ?_⟩
  · exact (C7_findTags_defaults (fun _ => none) (fun t _ _ => suffixRules t) "en"
      ("NN", "NNP", "CD") ["Paris", "12:30"] 0 "Paris" (by decide) rfl
      (fun _ => rfl)).1 (by decide)
  · exact ((C7_findTags_defaults (fun _ => none) (fun t _ _ => suffixRules t) "en"
      ("NN", "NNP", "CD") ["Paris", "12:30"] 1 "12:30" (by decide) rfl
      (by intro h; cases h)).2.1) (by decide) (by decide)
  · exact ((C7_findTags_defaults (fun _ => none) (fun t _ _ => suffixRules t) "en"
      ("NN", "NNP", "CD") ["friendly"] 0 "friendly" (by decide) rfl
      (fun _ => rfl)).2.2) [] rfl rfl (by decide) (by decide)

/-! ## The morphological rule engine (`Morphology.apply`, lines 421-443)

A rule row is a list of whitespace-split fields.  The loop first re-parses
the row: if field 1 is a recognized command the row is read as the
unconditional 4-field form, and if field 2 is a recognized command that
reading is overwritten by the conditional 5-field form (whose command is
lowercased and stripped of leading `f`s).  If neither field names a command
the Python variables `f, x, pos, cmd` silently keep their values from the
previous iteration (and the very first such row raises `NameError`, modelled
as `none`).  Conditional rules are skipped when the token's current tag
differs from field 0.  On a match the tag is overwritten and the loop
continues with the remaining rules. -/

/-- The recognized command table including the `f`-prefixed doubles
(lines 398-409). -/
def morphCmds : List String :=
  let base := ["char", "haspref", "hassuf", "addpref", "addsuf", "deletepref",
    "deletesuf", "goodleft", "goodright"]
  base ++ base.map (fun c => "f" ++ c)

/-- The parsed `f, x, pos, cmd` state of the loop in `Morphology.apply`. -/
structure MorphParsed where
  f : Bool
  x : String
  pos : String
  cmd : String
deriving DecidableEq

/-- Reading a row as the unconditional form `x cmd pos "x"` (line 428):
`f=False, x=r[0], pos=r[-2], cmd=r[1].lower()`. -/
def morphParseUncond (r : List String) : MorphParsed :=
  { f := false, x := r.headD "", pos := r.getD (r.length - 2) "",
    cmd := pyLowerStr (r.getD 1 "") }

/-- Reading a row as the conditional form `tag x fcmd pos "x"` (line 430):
`f=True, x=r[1], pos=r[-2], cmd=r[2].lower().lstrip("f")`. -/
def morphParseCond (r : List String) : MorphParsed :=
  { f := true, x := r.getD 1 "", pos := r.getD (r.length - 2) "",
    cmd := String.mk ((pyLowerStr (r.getD 2 "")).data.dropWhile (fun c => c = 'f')) }

/-- The match test of lines 433-441.  `w[:-len(x)]` is the empty string in
Python when `len(x) = 0`. -/
def morphMatch (lexicon : List String) (previous next : Option String) (w : String)
    (mp : MorphParsed) : Bool :=
  (mp.cmd == "char" && hasSub mp.x.data w.data) ||
  (mp.cmd == "haspref" && pfx mp.x.data w.data) ||
  (mp.cmd == "hassuf" && sfx mp.x.data w.data) ||
  (mp.cmd == "addpref" && decide ((mp.x ++ w) ∈ lexicon)) ||
  (mp.cmd == "addsuf" && decide ((w ++ mp.x) ∈ lexicon)) ||
  (mp.cmd == "deletepref" && pfx mp.x.data w.data &&
    decide (String.mk (w.data.drop mp.x.data.length) ∈ lexicon)) ||
  (mp.cmd == "deletesuf" && sfx mp.x.data w.data &&
    decide ((if mp.x.data.length = 0 then ""
      else String.mk (w.data.take (w.data.length - mp.x.data.length))) ∈ lexicon)) ||
  (mp.cmd == "goodleft" && decide (next = some mp.x)) ||
  (mp.cmd == "goodright" && decide (previous = some mp.x))

/-- The loop of `Morphology.apply` with the carried parse state. -/
def morphApplyGo (lexicon : List String) (previous next : Option String) (w : String) :
    Option MorphParsed → String → List (List String) → Option String
  | _, tag, [] => some tag
  | carry, tag, r :: rest =>
    match r.get? 1, r.get? 2 with
    | some r1, some r2 =>
      let parsed := if r2 ∈ morphCmds then some (morphParseCond r)
        else if r1 ∈ morphCmds then some (morphParseUncond r)
        else carry
      match parsed with
      | none => none
      | some mp =>
        let tag' := if mp.f && !(tag == r.headD "") then tag
          else if morphMatch lexicon previous next w mp then mp.pos else tag
        morphApplyGo lexicon previous next w parsed tag' rest
    | _, _ => none

/-- `Morphology.apply(token, previous, next)` on a `[word, tag]` token;
`none` models an uncaught Python exception. -/
def morphApply (lexicon : List String) (rules : List (List String))
    (token : String × String) (previous next : Option String) :
    Option (String × String) :=
  (morphApplyGo lexicon previous next token.1 none token.2 rules).map
    (fun t => (token.1, t))

/-- Well-formed rule rows: the 4-field unconditional form whose command is
field 1 (and whose target field 2 is not itself a command name), or the
5-field conditional form whose command is field 2. -/
def morphWF (r : List String) : Prop :=
  (r.length = 4 ∧ r.getD 1 "" ∈ morphCmds ∧ r.getD 2 "" ∉ morphCmds) ∨
  (r.length = 5 ∧ r.getD 2 "" ∈ morphCmds)

instance (r : List String) : Decidable (morphWF r) := by
  unfold morphWF; infer_instance

/-- The parse of a well-formed row, ignoring any carried state. -/
def morphRuleParse (r : List String) : MorphParsed :=
  if r.getD 2 "" ∈ morphCmds then morphParseCond r else morphParseUncond r

/-- One in-order evaluation step: overwrite the tag when the rule matches,
keep it otherwise. -/
def morphRefStep (lexicon : List String) (previous next : Option String) (w : String)
    (tag : String) (r : List String) : String :=
  let mp := morphRuleParse r
  if mp.f && !(tag == r.headD "") then tag
  else if morphMatch lexicon previous next w mp then mp.pos else tag

/-- The unconditional 4-field well-formedness. -/
def morphWFUncond (r : List String) : Prop :=
  r.length = 4 ∧ r.getD 1 "" ∈ morphCmds ∧ r.getD 2 "" ∉ morphCmds

instance (r : List String) : Decidable (morphWFUncond r) := by
  unfold morphWFUncond; infer_instance

/-- The state-independent match test for unconditional rules. -/
def morphUncondMatches (lexicon : List String) (previous next : Option String)
    (w : String) (r : List String) : Bool :=
  morphMatch lexicon previous next w (morphParseUncond r)

theorem morphApplyGo_eq_fold (lexicon : List String) (previous next : Option String)
    (w : String) :
    ∀ (rules : List (List String)), (∀ r ∈ rules, morphWF r) →
      ∀ (carry : Option MorphParsed) (tag : String),
        morphApplyGo lexicon previous next w carry tag rules =
          some (rules.foldl (morphRefStep lexicon previous next w) tag) := by
  intro rules
  induction rules with
  | nil => intro _ carry tag; rfl
  | cons r rest ih =>
    intro hwf carry tag
    have hr : morphWF r := hwf r (List.mem_cons_self _ _)
    have hlen : 3 < r.length := by
      rcases hr with ⟨h4, _⟩ | ⟨h5, _⟩ <;> omega
    have hr1 : r.get? 1 = some (r.getD 1 "") := by
      cases h : r.get? 1 with
      | none => rw [List.get?_eq_none] at h; omega
      | some v => rw [List.getD, h]; rfl
    have hr2 : r.get? 2 = some (r.getD 2 "") := by
      cases h : r.get? 2 with
      | none => rw [List.get?_eq_none] at h; omega
      | some v => rw [List.getD, h]; rfl
    have hparsed : ∀ c : Option MorphParsed,
        (if r.getD 2 "" ∈ morphCmds then some (morphParseCond r)
          else if r.getD 1 "" ∈ morphCmds then some (morphParseUncond r)
          else c) = some (morphRuleParse r) := by
      intro c
      rw [morphRuleParse]
      by_cases h2 : r.getD 2 "" ∈ morphCmds
      · rw [if_pos h2, if_pos h2]
      · rw [if_neg h2, if_neg h2]
        rcases hr with ⟨_, h1, h2'⟩ | ⟨_, h2'⟩
        · rw [if_pos h1]
        · exact absurd h2' h2
    show morphApplyGo lexicon previous next w carry tag (r :: rest) = _
    rw [morphApplyGo, hr1, hr2]
    simp only [hparsed]
    rw [ih (fun r' hr' => hwf r' (List.mem_cons_of_mem _ hr'))]
    rfl

theorem foldl_morphRefStep_lastMatch (lexicon : List String)
    (previous next : Option String) (w : String) :
    ∀ (rules : List (List String)), (∀ r ∈ rules, morphWFUncond r) →
      ∀ tag : String,
        rules.foldl (morphRefStep lexicon previous next w) tag =
          (match (rules.filter
              (fun r => morphUncondMatches lexicon previous next w r)).getLast? with
            | some r => (morphParseUncond r).pos
            | none => tag) := by
  intro rules
  induction rules with
  | nil => intro _ tag; rfl
  | cons r rest ih =>
    intro hwf tag
    have hr : morphWFUncond r := hwf r (List.mem_cons_self _ _)
    have hstep : morphRefStep lexicon previous next w tag r =
        (if morphUncondMatches lexicon previous next w r then (morphParseUncond r).pos
          else tag) := by
      rw [morphRefStep, morphRuleParse, if_neg hr.2.2]
      rw [show (morphParseUncond r).f = false from rfl]
      simp only [Bool.false_and, Bool.false_eq_true, if_false]
      rfl
    have ihrest := ih (fun r' hr' => hwf r' (List.mem_cons_of_mem _ hr'))
    rw [List.foldl_cons, hstep]
    by_cases hm : morphUncondMatches lexicon previous next w r
    · rw [if_pos hm]
      rw [List.filter_cons_of_pos (by simpa using hm)]
      cases hfil : rest.filter (fun r' => morphUncondMatches lexicon previous next w r') with
      | nil =>
        rw [ihrest, hfil]
        rfl
      | cons q qs =>
        rw [ihrest, hfil, List.getLast?_cons_cons]
        cases hg : (q :: qs).getLast? with
        | none => rw [List.getLast?_eq_none_iff] at hg; cases hg
        | some l => rfl
    · rw [if_neg hm]
      rw [List.filter_cons_of_neg (by simpa using hm)]
      exact ihrest tag

/-- **C8.** On a well-formed rule list `Morphology.apply` never raises and
equals the in-order fold that overwrites the tag at every matching rule, so
for a list of unconditional rules the final tag is the target of the *last*
matching rule (or the original tag when none matches); in particular the
single unconditional rule `["ly", "hassuf", "RB", "x"]` retags every word
ending in `ly` to `RB`. -/
theorem C8_morphology_lastmatch (lexicon : List String) (previous next : Option String)
    (w tag : String) (rules : List (List String)) (hwf : ∀ r ∈ rules, morphWF r) :
    (morphApply lexicon rules (w, tag) previous next =
      some (w, rules.foldl (morphRefStep lexicon previous next w) tag)) ∧
    ((∀ r ∈ rules, morphWFUncond r) →
      morphApply lexicon rules (w, tag) previous next =
        some (w, (match (rules.filter
            (fun r => morphUncondMatches lexicon previous next w r)).getLast? with
          | some r => (morphParseUncond r).pos
          | none => tag))) ∧
    (sfx "ly".data w.data = true →
      morphApply lexicon [["ly", "hassuf", "RB", "x"]] (w, tag) previous next =
        some (w, "RB")) := by
  refine ⟨?_, ?_, ?_⟩
  · rw [morphApply, morphApplyGo_eq_fold lexicon previous next w rules hwf]
    rfl
  · intro huncond
    rw [morphApply, morphApplyGo_eq_fold lexicon previous next w rules hwf,
      foldl_morphRefStep_lastMatch lexicon previous next w rules huncond]
    rfl
  · intro hly
    have hwf1 : ∀ r ∈ [["ly", "hassuf", "RB", "x"]], morphWF r := by
      intro r hr
      rw [List.mem_singleton] at hr
      subst hr
      left
      refine ⟨rfl, by decide, by decide⟩
    rw [morphApply, morphApplyGo_eq_fold lexicon previous next w _ hwf1]
    have hmp : morphRuleParse ["ly", "hassuf", "RB", "x"] =
        ⟨false, "ly", "RB", "hassuf"⟩ := by decide
    have hstep : morphRefStep lexicon previous next w tag ["ly", "hassuf", "RB", "x"] =
        "RB" := by
      rw [morphRefStep, hmp]
      simp [morphMatch, hly]
    rw [List.foldl_cons, hstep]
    rfl

/-- **C8, witness.** A conditional and an unconditional rule applied in
order: `walks/NN` matches the conditional `fhassuf s` rule, and the
unconditional `hassuf ly` rule retags `quickly`. -/
theorem C8_morphology_lastmatch_witness :
    morphApply [] [["NN", "s", "fhassuf", "NNS", "x"], ["ly", "hassuf", "RB", "x"]]
      ("walks", "NN") none none =
      some ("walks",
        [["NN", "s", "fhassuf", "NNS", "x"], ["ly", "hassuf", "RB", "x"]].foldl
          (morphRefStep [] none none "walks") "NN") ∧
    morphApply [] [["ly", "hassuf", "RB", "x"]] ("quickly", "NN") none none =
      some ("quickly", "RB") := by
  refine ⟨?_, ?_⟩
  · exact (C8_morphology_lastmatch [] none none "walks" "NN"
      [["NN", "s", "fhassuf", "NNS", "x"], ["ly", "hassuf", "RB", "x"]] (by decide)).1
  · exact (C8_morphology_lastmatch [] none none "quickly" "NN"
      [["ly", "hassuf", "RB", "x"]] (by decide)).2.2 (by decide)

/-! ## The sentiment scorer (`Sentiment`, lines 687-923)

The sentiment lexicon maps a word to a per-part-of-speech table of
`(polarity, subjectivity, intensity)` triples (with a `None` wildcard slot),
plus a labeler, the configured negation words (default
`no, not, n't, never`), modifier tags (default `("RB",)`) and the modifier
heuristic (default: ends in `ly`).  `assessments` (lines 840-914) scans
`(word, pos)` pairs keeping a pending-modifier slot `m` and a
pending-negation slot `n`.  Python floats are `ℚ`; `1.0 / 0.0` raises
`ZeroDivisionError`, modelled as `none`. -/

/-- The `PUNCTUATION` string of line 194 as a character list. -/
def PUNCTUATION : List Char :=
  ['.', ',', ';', ':', '!', '?', '(', ')', '[', ']', '{', '}', bquote, apos, apos,
   dquote, '@', '#', '$', '^', '&', '*', '+', '-', '|', '=', '~', '_']

/-- Python `str.isalpha` over ASCII (false on the empty string). -/
def pyIsAlpha (w : String) : Bool :=
  decide (w.data ≠ []) && w.data.all Char.isAlpha

/-- Python `str.strip(c)`: drop leading and trailing occurrences of `c`. -/
def stripChar (c : Char) (l : List Char) : List Char :=
  ((l.dropWhile (fun d => d = c)).reverse.dropWhile (fun d => d = c)).reverse

/-- The fixed emoticon table (lines 210-220) in source order:
`(category, polarity)` with the glyph set. -/
def EMOTICONS : List ((String × ℚ) × List String) :=
  [(("love", 1), ["<3", "♥"]),
   (("grin", 1), [">:D", ":-D", ":D", "=-D", "=D", "X-D", "x-D", "XD", "xD", "8-D"]),
   (("taunt", 3/4), [">:P", ":-P", ":P", ":-p", ":p", ":-b", ":b", ":c)", ":o)", ":^)"]),
   (("smile", 1/2), [">:)", ":-)", ":)", "=)", "=]", ":]", String.mk [':', Char.ofNat 125], ":>", ":3", "8)", "8-)"]),
   (("wink", 1/4), [">;]", ";-)", ";)", ";-]", ";]", ";D", ";^)", "*-)", "*)"]),
   (("gasp", 1/20), [">:o", ":-O", ":O", ":o", ":-o", "o_O", "o.O", "°O°", "°o°"]),
   (("worry", -1/4), [">:/", ":-/", ":/", ":\\", ">:\\", ":-.", ":-s", ":s", ":S", ":-S", ">.>"]),
   (("frown", -3/4), [">:[", ":-(", ":(", "=(", ":-[", ":[", String.mk [':', Char.ofNat 123], ":-<", ":c", ":-c", "=/"]),
   (("cry", -1), [String.mk [':', apos, '('], String.mk [':', apos, apos, apos, '('],
     String.mk [';', apos, '(']])]

/-- Python `str.lower` on a whole string, over ASCII. -/
theorem pyLowerStr_def (s : String) : pyLowerStr s = String.mk (s.data.map pyToLower) := rfl

/-- The emoticon check of lines 901-905: only for short, non-alphabetic
tokens that are not substrings of `PUNCTUATION`; returns the polarity of the
first table category (in source order) whose lowercased glyph set contains
the token. -/
def emoticonAssess (w : String) : Option ℚ :=
  if pyIsAlpha w = false ∧ w.data.length ≤ 5 ∧ hasSub w.data PUNCTUATION = false then
    (EMOTICONS.find? (fun entry => decide (w ∈ entry.2.map pyLowerStr))).map
      (fun entry => entry.1.2)
  else none

/-- One assessment record: contributing words, polarity, subjectivity,
intensity, sign and optional semantic label. -/
structure Assess where
  w : List String
  p : ℚ
  s : ℚ
  i : ℚ
  n : Int
  x : Option String
deriving DecidableEq

/-- A sentiment lexicon: per-word, per-pos `(p, s, i)` triples (with a
`none` wildcard slot), the labeler, the configured negation words, modifier
tags, and the modifier heuristic (default: ends in `ly`). -/
structure SentLex where
  entries : List (String × List (Option String × (ℚ × ℚ × ℚ)))
  labeler : List (String × String)
  negations : List String
  modifiers : List String
  modifierFn : String → Bool

/-- `w in self` plus `self[w]` on the lexicon dictionary. -/
def lexFind (L : SentLex) (w : String) :
    Option (List (Option String × (ℚ × ℚ × ℚ))) :=
  (L.entries.find? (fun e => e.1 == w)).map (fun e => e.2)

/-- `pos in self[w]` plus `self[w][pos]` on a word's per-pos table. -/
def posFind (d : List (Option String × (ℚ × ℚ × ℚ))) (pos : Option String) :
    Option (ℚ × ℚ × ℚ) :=
  (d.find? (fun e => e.1 == pos)).map (fun e => e.2)

/-- `self.labeler.get(w)`. -/
def labelGet (L : SentLex) (w : String) : Option String :=
  (L.labeler.find? (fun e => e.1 == w)).map (fun e => e.2)

/-- `max(-1.0, min(value, +1.0))`. -/
def pyClamp (q : ℚ) : ℚ := max (-1) (min q 1)

/-- The scan state: assessments so far, pending modifier, pending negation. -/
structure AState where
  a : List Assess
  m : Option (String × Option String)
  n : Option String

/-- `a[-1]` mutation; `none` models Python's `IndexError` on an empty list. -/
def modifyLastA (a : List Assess) (f : Assess → Assess) : Option (List Assess) :=
  match a.getLast? with
  | some lst => some (a.dropLast ++ [f lst])
  | none => none

/-- Lines 871-877: after handling a known word, reset and re-arm the
modifier slot (`pos and pos in self.modifiers or any(map(self[w].__contains__,
self.modifiers))`) and the negation slot (`negation and w in self.negations`). -/
def assessArm (L : SentLex) (negation : Bool) (w : String) (pos : Option String)
    (d : List (Option String × (ℚ × ℚ × ℚ))) (a : List Assess) : AState :=
  { a := a,
    m := if (match pos with
        | some ps => decide (ps ≠ "") && decide (ps ∈ L.modifiers)
        | none => false) ||
        L.modifiers.any (fun mp => (posFind d (some mp)).isSome) then
        some (w, pos) else none,
    n := if negation && decide (w ∈ L.negations) then some w else none }

/-- Lines 853-877, the known-word branch: append a fresh assessment when no
modifier is pending, else fold into the previous one; then, when a negation
is pending, prepend it, replace the intensity by its reciprocal (Python
raises `ZeroDivisionError` when it is zero) and set the sign to `-1`. -/
def assessKnown (L : SentLex) (negation : Bool) (st : AState) (w : String)
    (pos : Option String) (d : List (Option String × (ℚ × ℚ × ℚ)))
    (psi : ℚ × ℚ × ℚ) : Option AState :=
  let p := psi.1
  let s := psi.2.1
  let i := psi.2.2
  let a1 := if st.m.isNone then st.a ++ [⟨[w], p, s, i, 1, labelGet L w⟩] else st.a
  let a2opt := if st.m.isSome then
      modifyLastA a1 (fun lst =>
        ⟨lst.w ++ [w], pyClamp (p * lst.i), pyClamp (s * lst.i), i, lst.n, labelGet L w⟩)
    else some a1
  match a2opt with
  | none => none
  | some a2 =>
    match st.n with
    | none => some (assessArm L negation w pos d a2)
    | some g =>
      match a2.getLast? with
      | none => none
      | some lst =>
        if lst.i = 0 then none
        else some (assessArm L negation w pos d
          (a2.dropLast ++ [⟨g :: lst.w, lst.p, lst.s, 1 / lst.i, -1, lst.x⟩]))

/-- Lines 879-905, the unknown-word branch: negation bookkeeping, the
negation-after-modifier fold, the modifier reset, the exclamation boost, the
sarcasm mark and the emoticon check. -/
def assessUnknown (L : SentLex) (negation : Bool) (st : AState) (w : String)
    (pos : Option String) : Option AState :=
  let n1 := if negation && decide (w ∈ L.negations) then some w
    else if (match st.n with | some g => decide (g ≠ "") | none => false) &&
        decide ((stripChar apos w.data).length > 1) then none
    else st.n
  let step2 : Option (List Assess × Option (String × Option String) × Option String) :=
    if n1.isSome && st.m.isSome &&
        ((match pos with | some ps => decide (ps ∈ L.modifiers) | none => false) ||
          (match st.m with | some mw => L.modifierFn mw.1 | none => false)) then
      match st.a.getLast?, n1 with
      | some lst, some g =>
        some (st.a.dropLast ++ [⟨lst.w ++ [g], lst.p, lst.s, lst.i, -1, lst.x⟩],
          st.m, none)
      | _, _ => none
    else if st.m.isSome && decide (w.data.length > 2) then some (st.a, none, n1)
    else some (st.a, st.m, n1)
  match step2 with
  | none => none
  | some (a2, m2, n2) =>
    let a3 := match a2.getLast? with
      | some lst =>
        if w == "!" then
          a2.dropLast ++ [⟨lst.w ++ ["!"], pyClamp (lst.p * (5/4)), lst.s, lst.i,
            lst.n, lst.x⟩]
        else a2
      | none => a2
    let a4 := if w == "(!)" then a3 ++ [⟨[w], 0, 1, 1, 1, some "irony"⟩] else a3
    let a5 := match emoticonAssess w with
      | some pe => a4 ++ [⟨[w], pe, 1, 1, 1, some "mood"⟩]
      | none => a4
    some ⟨a5, m2, n2⟩

/-- One step of the scan (lines 848-905): `None` words are skipped; a word
with a lexicon entry for the given pos (or the wildcard) takes the
known-word branch, everything else the unknown-word branch. -/
def assessStep (L : SentLex) (negation : Bool) (st : AState)
    (wp : Option String × Option String) : Option AState :=
  match wp.1 with
  | none => some st
  | some w =>
    match lexFind L w with
    | some d =>
      match posFind d wp.2 with
      | some psi => assessKnown L negation st w wp.2 d psi
      | none => assessUnknown L negation st w wp.2
    | none => assessUnknown L negation st w wp.2

/-- `Sentiment.assessments(words, negation)` (lines 840-914): run the scan
and apply the final pass — a negated assessment's output polarity is its
stored polarity times `-0.5`. -/
def assessments (L : SentLex) (wordsList : List (Option String × Option String))
    (negation : Bool) : Option (List (List String × ℚ × ℚ × Option String)) :=
  (wordsList.foldlM (fun st wp => assessStep L negation st wp) ⟨[], none, none⟩).map
    (fun st => st.a.map (fun r =>
      (r.w, if r.n < 0 then r.p * (-1/2) else r.p, r.s, r.x)))

/-- `n or 1` / `len(list) or 1`: the guarded denominator. -/
def pyOrOne (q : ℚ) : ℚ := if q = 0 then 1 else q

/-- `avg` (lines 674-675). -/
def pyAvg (l : List ℚ) : ℚ := l.sum / pyOrOne (l.length : ℚ)

/-- The inner weighted average of `Sentiment.__call__` (lines 790-796). -/
def scoreAvg (weighted : List String → ℚ) (items : List (List String × ℚ)) : ℚ :=
  let sn := items.foldl
    (fun acc it => (acc.1 + weighted it.1 * it.2, acc.2 + weighted it.1)) (0, 0)
  sn.1 / pyOrOne sn.2

/-- The `(polarity, subjectivity)` score built at lines 836-838. -/
def sentimentScore (assess : List (List String × ℚ × ℚ × Option String))
    (weighted : List String → ℚ) : ℚ × ℚ :=
  (scoreAvg weighted (assess.map (fun a => (a.1, a.2.1))),
   scoreAvg weighted (assess.map (fun a => (a.1, a.2.2.1))))

theorem assessStep_negword (L : SentLex) (g : String)
    (hg_lex : lexFind L g = none) (hg_neg : g ∈ L.negations) (hg_sarc : g ≠ "(!)")
    (hg_emo : emoticonAssess g = none) :
    assessStep L true ⟨[], none, none⟩ (some g, none) = some ⟨[], none, some g⟩ := by
  simp only [assessStep, hg_lex]
  simp only [assessUnknown, hg_emo]
  simp [hg_neg, hg_sarc]

theorem assessStep_known_negated (L : SentLex) (w g : String)
    (d : List (Option String × (ℚ × ℚ × ℚ))) (p s i : ℚ)
    (hw : lexFind L w = some d) (hpos : posFind d none = some (p, s, i)) (hi : i ≠ 0) :
    assessStep L true ⟨[], none, some g⟩ (some w, none) =
      some (assessArm L true w none d [⟨[g, w], p, s, 1 / i, -1, labelGet L w⟩]) := by
  simp only [assessStep, hw, hpos]
  simp [assessKnown, modifyLastA, hi]

theorem assessStep_known_plain (L : SentLex) (w : String)
    (d : List (Option String × (ℚ × ℚ × ℚ))) (p s i : ℚ)
    (hw : lexFind L w = some d) (hpos : posFind d none = some (p, s, i)) :
    assessStep L true ⟨[], none, none⟩ (some w, none) =
      some (assessArm L true w none d [⟨[w], p, s, i, 1, labelGet L w⟩]) := by
  simp only [assessStep, hw, hpos]
  simp [assessKnown, modifyLastA]

/-- **C3, amended.** For a word `w` stored in the lexicon under the wildcard
pos with triple `(p, s, i)` whose intensity `i` is nonzero, and a negation
word `g` that is not itself a lexicon key (nor the sarcasm mark, nor an
emoticon), scoring `[g, w]` with negation enabled produces exactly one
assessment with output polarity `p * -0.5`, scoring `[w]` alone produces
polarity `p`, and the two differ whenever `p` is nonzero. -/
theorem C3_negation_amended (L : SentLex) (g w : String)
    (d : List (Option String × (ℚ × ℚ × ℚ))) (p s i : ℚ)
    (hw : lexFind L w = some d) (hpos : posFind d none = some (p, s, i)) (hi : i ≠ 0)
    (hg_lex : lexFind L g = none) (hg_neg : g ∈ L.negations)
    (hg_sarc : g ≠ "(!)") (hg_emo : emoticonAssess g = none) :
    assessments L [(some g, none), (some w, none)] true =
      some [([g, w], p * (-1/2), s, labelGet L w)] ∧
    assessments L [(some w, none)] true = some [([w], p, s, labelGet L w)] ∧
    (p ≠ 0 → p * (-1/2) ≠ p) := by
  refine ⟨?_, ?_, ?_⟩
  · rw [assessments]
    rw [List.foldlM_cons]
    rw [assessStep_negword L g hg_lex hg_neg hg_sarc hg_emo]
    rw [Option.bind_eq_bind, Option.some_bind]
    rw [List.foldlM_cons]
    rw [assessStep_known_negated L w g d p s i hw hpos hi]
    rw [Option.bind_eq_bind, Option.some_bind, List.foldlM_nil]
    simp [assessArm]
  · rw [assessments]
    rw [List.foldlM_cons]
    rw [assessStep_known_plain L w d p s i hw hpos]
    rw [Option.bind_eq_bind, Option.some_bind, List.foldlM_nil]
    simp [assessArm]
  · intro hp heq
    apply hp
    linarith

/-- The lexicon of the counterexample: `bad` stored with intensity `0`. -/
def sentLexZero : SentLex :=
  ⟨[("bad", [(none, (-1, 1, 0))])], [], ["no", "not", "never"], ["RB"],
    fun w => sfx "ly".data w.data⟩

/-- **C3, counterexample.** With a stored triple whose intensity is `0`,
`bad` is in the lexicon under the wildcard pos and `not` is a configured
negation word that is not a lexicon key, yet scoring `["not", "bad"]` with
negation enabled raises `ZeroDivisionError` (line 868 divides by the stored
intensity), modelled as `none` — no assessment list is produced at all, so
the claim fails for this stored triple. -/
theorem C3_negation_counterexample :
    lexFind sentLexZero "bad" = some [(none, (-1, 1, 0))] ∧
    posFind [(none, (-1, 1, 0))] none = some (-1, 1, 0) ∧
    "not" ∈ sentLexZero.negations ∧
    lexFind sentLexZero "not" = none ∧
    (-1 : ℚ) ≠ 0 ∧
    assessments sentLexZero [(some "not", none), (some "bad", none)] true = none := by
  refine ⟨by decide, by decide, by decide, by decide, by decide, by decide⟩

/-- The lexicon of the witness: `bad` stored with intensity `1`. -/
def sentLexOne : SentLex :=
  ⟨[("bad", [(none, (-1, 1, 1))])], [], ["no", "not", "never"], ["RB"],
    fun w => sfx "ly".data w.data⟩

/-- **C3, witness.** The amended claim at the concrete lexicon entry
`bad ↦ (-3/4, 1, 1)` and negation word `not`. -/
theorem C3_negation_witness :
    assessments sentLexOne [(some "not", none), (some "bad", none)] true =
      some [(["not", "bad"], (-1 : ℚ) * (-1/2), 1, labelGet sentLexOne "bad")] ∧
    assessments sentLexOne [(some "bad", none)] true =
      some [(["bad"], (-1 : ℚ), 1, labelGet sentLexOne "bad")] ∧
    ((-1 : ℚ) ≠ 0 → (-1 : ℚ) * (-1/2) ≠ (-1 : ℚ)) :=
  C3_negation_amended sentLexOne "not" "bad" [(none, (-1, 1, 1))] (-1) 1 1
    (by decide) (by decide) (by decide) (by decide) (by decide) (by decide) (by decide)

theorem assessStep_unknown_plain (L : SentLex) (w : String)
    (hlex : lexFind L w = none) (hneg : w ∉ L.negations) (hsarc : w ≠ "(!)")
    (hemo : emoticonAssess w = none) :
    assessStep L true ⟨[], none, none⟩ (some w, none) = some ⟨[], none, none⟩ := by
  simp only [assessStep, hlex]
  simp only [assessUnknown, hemo]
  simp [hneg, hsarc]

theorem assess_foldlM_empty (L : SentLex) :
    ∀ ws : List String,
      (∀ w ∈ ws, lexFind L w = none ∧ w ∉ L.negations ∧ w ≠ "(!)" ∧
        emoticonAssess w = none) →
      ((ws.map (fun w => ((some w : Option String), (none : Option String)))).foldlM
        (fun st wp => assessStep L true st wp) ⟨[], none, none⟩) =
        some ⟨[], none, none⟩ := by
  intro ws
  induction ws with
  | nil => intro _; rfl
  | cons w rest ih =>
    intro h
    obtain ⟨hlex, hneg, hsarc, hemo⟩ := h w (List.mem_cons_self _ _)
    rw [List.map_cons, List.foldlM_cons,
      assessStep_unknown_plain L w hlex hneg hsarc hemo]
    rw [Option.bind_eq_bind, Option.some_bind]
    exact ih (fun w' hw' => h w' (List.mem_cons_of_mem _ hw'))

/-- **C10.** A word list in which every word is absent from the lexicon and
is not a negation word, the sarcasm token or an emoticon yields the empty
assessment list; the resulting Score has polarity `0` and subjectivity `0`
with an empty assessments list, and the weighted-average denominator — and
`avg`'s denominator — are guarded by `or 1`, so they are never zero for any
input shape. -/
theorem C10_empty_score (L : SentLex) (ws : List String)
    (hws : ∀ w ∈ ws, lexFind L w = none ∧ w ∉ L.negations ∧ w ≠ "(!)" ∧
      emoticonAssess w = none) :
    assessments L (ws.map (fun w => (some w, none))) true = some [] ∧
    sentimentScore [] (fun _ => 1) = (0, 0) ∧
    pyAvg [] = 0 ∧
    (∀ q : ℚ, pyOrOne q ≠ 0) := by
  refine ⟨?_, ?_, ?_, ?_⟩
  · rw [assessments, assess_foldlM_empty L ws hws]
    rfl
  · simp [sentimentScore, scoreAvg, pyOrOne]
  · simp [pyAvg, pyOrOne]
  · intro q
    rw [pyOrOne]
    by_cases hq : q = 0
    · rw [if_pos hq]; norm_num
    · rw [if_neg hq]; exact hq

/-- **C10, witness.** Two ordinary out-of-lexicon words with an empty
sentiment lexicon. -/
theorem C10_empty_score_witness :
    assessments ⟨[], [], ["no", "not", "never"], ["RB"], fun _ => false⟩
      (["the", "movie"].map (fun w => (some w, none))) true = some [] ∧
    sentimentScore [] (fun _ => 1) = (0, 0) ∧
    pyAvg [] = 0 ∧
    (∀ q : ℚ, pyOrOne q ≠ 0) :=
  C10_empty_score ⟨[], [], ["no", "not", "never"], ["RB"], fun _ => false⟩
    ["the", "movie"]
    (by intro w hw
        fin_cases hw <;> exact ⟨rfl, by decide, by decide, by decide⟩)

/-! ## The lazy containers (`lazydict._lazy` / `lazylist._lazy`, lines 66-73, 111-118)

Every public operation calls `_lazy(method, ...)`: when the backing store is
empty it calls `load()`, then replaces *that one method* on the instance
with the plain container method, and finally delegates.  A method that has
been replaced bypasses `_lazy` on later calls; other methods still go
through it.  Since `_lazy` only inspects the store's emptiness, the store is
abstracted to its size, with each operation carrying its plain-container
effect on the size (`id` for reads, an increment for inserts, a decrement
for pops); `load` installs `loadSize` entries via the primitive
`dict.__setitem__`. -/

/-- The observable instance state: backing-store size, the set of method
names already replaced on the instance, and the number of `load` runs. -/
structure LazyInst where
  size : Nat
  memo : List String
  loads : Nat
deriving DecidableEq

/-- One public operation `(methodName, sizeEffect)` dispatched through
`_lazy` (lines 66-73): a replaced method bypasses `_lazy`; otherwise, when
the store is empty, `load()` runs and the method is replaced; in every case
the plain-container method then runs. -/
def lazyCall (loadSize : Nat) (st : LazyInst) (op : String × (Nat → Nat)) : LazyInst :=
  if op.1 ∈ st.memo then { st with size := op.2 st.size }
  else if st.size = 0 then
    { size := op.2 loadSize, memo := op.1 :: st.memo, loads := st.loads + 1 }
  else { st with size := op.2 st.size }

/-- A freshly constructed lazy container run through a sequence of public
operations. -/
def lazyRun (loadSize : Nat) (ops : List (String × (Nat → Nat))) : LazyInst :=
  ops.foldl (lazyCall loadSize) ⟨0, [], 0⟩

/-- **C4, counterexample.** An instance whose `load` leaves the backing
store empty — exactly the claim's `Sentiment` with a nonexistent XML path
(`Sentiment.load`, lines 726-727, returns without populating) — runs `load`
once for `len()` and *again* for the subsequent `in` test, because
`_lazy` re-checks emptiness for every method not yet replaced; the claim's
"at most once ... including when load leaves the backing store empty" fails
after two distinct operations. -/
theorem C4_lazy_load_counterexample :
    (lazyRun 0 [("__len__", fun n => n), ("__contains__", fun n => n)]).loads = 2 ∧
    ¬ (lazyRun 0 [("__len__", fun n => n), ("__contains__", fun n => n)]).loads ≤ 1 := by
  refine ⟨rfl, by decide⟩

theorem lazyRun_loaded_no_reload (loadSize : Nat)
    (hpos : ∀ op : String × (Nat → Nat), ∀ n : Nat, 0 < n → 0 < op.2 n) :
    ∀ (ops : List (String × (Nat → Nat))) (st : LazyInst), 0 < st.size →
      (ops.foldl (lazyCall loadSize) st).loads = st.loads := by
  intro ops
  induction ops with
  | nil => intro st _; rfl
  | cons op rest ih =>
    intro st hst
    rw [List.foldl_cons]
    have hsz : 0 < op.2 st.size := hpos op st.size hst
    rw [lazyCall]
    by_cases hmem : op.1 ∈ st.memo
    · rw [if_pos hmem]
      exact ih _ hsz
    · rw [if_neg hmem, if_neg (by omega)]
      exact ih _ hsz

/-- **C4, amended.** When `load` populates the backing store with at least
one entry and no operation empties it again (every operation's size effect
preserves positivity), the load step runs exactly once over any nonempty
operation sequence — the first access triggers it and every subsequent
operation bypasses it; a `load` that leaves the store empty is instead
re-run on the first call of each not-yet-replaced operation. -/
theorem C4_lazy_load_amended (loadSize : Nat) (ops : List (String × (Nat → Nat)))
    (hload : 0 < loadSize)
    (hpos : ∀ op ∈ ops, ∀ n : Nat, 0 < n → 0 < op.2 n) :
    (lazyRun loadSize ops).loads = min ops.length 1 := by
  cases ops with
  | nil => rfl
  | cons op rest =>
    rw [lazyRun, List.foldl_cons]
    have hstep : lazyCall loadSize ⟨0, [], 0⟩ op =
        ⟨op.2 loadSize, [op.1], 1⟩ := by
      rw [lazyCall]
      rw [if_neg (by simp), if_pos rfl]
    rw [hstep]
    have hpos' : ∀ o : String × (Nat → Nat), o ∈ rest → ∀ n : Nat, 0 < n → 0 < o.2 n :=
      fun o ho => hpos o (List.mem_cons_of_mem _ ho)
    have : (rest.foldl (lazyCall loadSize) ⟨op.2 loadSize, [op.1], 1⟩).loads = 1 := by
      have hmono : ∀ (ops' : List (String × (Nat → Nat))) (st : LazyInst), 0 < st.size →
          (∀ o ∈ ops', ∀ n : Nat, 0 < n → 0 < o.2 n) →
          (ops'.foldl (lazyCall loadSize) st).loads = st.loads := by
        intro ops'
        induction ops' with
        | nil => intro st _ _; rfl
        | cons o rest' ih =>
          intro st hst hp
          rw [List.foldl_cons]
          have hsz : 0 < o.2 st.size := hp o (List.mem_cons_self _ _) st.size hst
          rw [lazyCall]
          by_cases hmem : o.1 ∈ st.memo
          · rw [if_pos hmem]
            exact ih _ hsz (fun o' ho' => hp o' (List.mem_cons_of_mem _ ho'))
          · rw [if_neg hmem, if_neg (by omega)]
            exact ih _ hsz (fun o' ho' => hp o' (List.mem_cons_of_mem _ ho'))
      exact hmono rest _ (hpos op (List.mem_cons_self _ _) loadSize hload) hpos'
    rw [this]
    simp [Nat.min_def]

/-- **C4, witness.** A populating `load` (one entry) with a read, an insert
and another read: one load in total. -/
theorem C4_lazy_load_witness :
    (lazyRun 1 [("__len__", fun n => n), ("__setitem__", fun n => n + 1),
      ("__contains__", fun n => n)]).loads =
      min [("__len__", fun n : Nat => n), ("__setitem__", fun n : Nat => n + 1),
        ("__contains__", fun n : Nat => n)].length 1 :=
  C4_lazy_load_amended 1 _ (by decide)
    (by intro op hop n hn
        fin_cases hop <;> simp <;> omega)

/-! ## The tokenizer (`find_tokens`, lines 242-318)

All passes operate on `List Char`.  Regular-expression substitutions with
literal patterns are ordinary leftmost non-overlapping replaces; `\n{2,}`,
the sarcasm pattern `\( ?\! ?\)` and the emoticon pattern are implemented as
direct scans.  The emoticon alternation order inside one category is the
glyph-set iteration order, which Python does not fix; the source-literal
order is used here (membership at any one position is what matters for the
inputs below).  After the whitespace collapse the token stream of
`TOKEN.findall(string + " ")` equals splitting on single spaces and
dropping empties. -/

/-- Leftmost, non-overlapping replace of `pat` by `rep` (Python
`re.sub` with a literal pattern / `str.replace`), fuel-driven. -/
def replaceSubGo (pat rep : List Char) : Nat → List Char → List Char
  | _, [] => []
  | 0, s => s
  | fuel + 1, c :: rest =>
    if pfx pat (c :: rest) then rep ++ replaceSubGo pat rep fuel (rest.drop (pat.length - 1))
    else c :: replaceSubGo pat rep fuel rest

/-- `replaceSubGo` with one unit of fuel per input character, which every
scan step consumes at least one of. -/
def replaceSub (pat rep s : List Char) : List Char :=
  replaceSubGo pat rep s.length s

/-- Apply a list of `(pattern, replacement)` substitutions in order. -/
def replaceAllPairs (prs : List (List Char × List Char)) (s : List Char) : List Char :=
  prs.foldl (fun acc pr => replaceSub pr.1 pr.2 acc) s

/-- The contraction table (lines 229-237) in insertion order. -/
def contractionPairs : List (List Char × List Char) :=
  [([apos, 'd'], [' ', apos, 'd']), ([apos, 'm'], [' ', apos, 'm']),
   ([apos, 's'], [' ', apos, 's']), ([apos, 'l', 'l'], [' ', apos, 'l', 'l']),
   ([apos, 'r', 'e'], [' ', apos, 'r', 'e']), ([apos, 'v', 'e'], [' ', apos, 'v', 'e']),
   (['n', apos, 't'], [' ', 'n', apos, 't'])]

/-- The keys of the contraction table (`t in replace` checks). -/
def replaceKeys : List (List Char) := contractionPairs.map (fun pr => pr.1)

/-- The quote-padding substitutions of lines 263-268, in source order. -/
def quotePads : List (List Char × List Char) :=
  [("“".data, " “ ".data), ("”".data, " ” ".data), ("‘".data, " ‘ ".data),
   ("’".data, " ’ ".data), ([apos], [' ', apos, ' ']), ([dquote], [' ', dquote, ' '])]

/-- Python's `\s` over ASCII. -/
def isPySpace (c : Char) : Bool :=
  decide (c ∈ [' ', '\t', '\n', '\r', Char.ofNat 11, Char.ofNat 12])

/-- `re.sub(r"\n{2,}", " END-OF-SENTENCE ", s)`: replace every maximal run
of two or more newlines; the flag records being inside an already-replaced
run. -/
def linebreakGo : Bool → List Char → List Char
  | _, [] => []
  | inRun, c :: rest =>
    if c = '\n' then
      if inRun then linebreakGo true rest
      else
        match rest with
        | c2 :: rest2 =>
          if c2 = '\n' then " END-OF-SENTENCE ".data ++ linebreakGo true rest2
          else '\n' :: c2 :: linebreakGo false rest2
        | [] => ['\n']
    else c :: linebreakGo false rest

/-- `re.sub(r"\s+", " ", s)`: collapse every whitespace run to one space;
the flag records being inside a collapsed run. -/
def wsCollapseGo : Bool → List Char → List Char
  | _, [] => []
  | inRun, c :: rest =>
    if isPySpace c then
      if inRun then wsCollapseGo true rest
      else ' ' :: wsCollapseGo true rest
    else c :: wsCollapseGo false rest

/-- `PUNCTUATION.replace(".", "")` (line 249): the punctuation tuple used by
the strip loops, periods handled separately. -/
def punctNoPeriod : List Char := PUNCTUATION.filter (fun c => c ≠ '.')

/-- The abbreviation set (lines 197-202). -/
def ABBREVIATIONS : List (List Char) :=
  ["a.", "adj.", "adv.", "al.", "a.m.", "c.", "cf.", "comp.", "conf.", "def.",
   "ed.", "e.g.", "esp.", "etc.", "ex.", "f.", "fig.", "gen.", "id.", "i.e.",
   "int.", "l.", "m.", "Med.", "Mil.", "Mr.", "n.", "n.q.", "orig.", "pl.",
   "pred.", "pres.", "p.m.", "ref.", "v.", "vs.", "w/"].map String.data

/-- `RE_ABBR1 = ^[A-Za-z]\.$`: a single letter plus period. -/
def reAbbr1 (t : List Char) : Bool :=
  match t with
  | [c, p] => c.isAlpha && decide (p = '.')
  | _ => false

def reAbbr2Go : List Char → Bool
  | [] => true
  | c :: p :: rest => c.isAlpha && decide (p = '.') && reAbbr2Go rest
  | _ => false

/-- `RE_ABBR2 = ^([A-Za-z]\.)+$`: alternating letters and periods. -/
def reAbbr2 (t : List Char) : Bool := decide (t ≠ []) && reAbbr2Go t

/-- The character class of `RE_ABBR3`: the consonants joined with `|`
(line 206-207 builds the class by `"|".join(...)`, so `|` is a member). -/
def abbr3class : List Char := "bcdfghjklmnpqrstvwxz|".data

/-- `RE_ABBR3 = ^[A-Z][b|c|...|z]+.$`: a capital, one or more class
characters, then any single character (the unescaped `.`, which does not
match a newline). -/
def reAbbr3 (t : List Char) : Bool :=
  match t with
  | c :: rest =>
    c.isUpper && decide (rest.length ≥ 2) &&
      rest.dropLast.all (fun d => decide (d ∈ abbr3class)) &&
      decide (rest.getLastD ' ' ≠ '\n')
  | [] => false

/-- The abbreviation test of lines 292-295. -/
def isAbbrev (t : List Char) : Bool :=
  decide (t ∈ ABBREVIATIONS) || reAbbr1 t || reAbbr2 t || reAbbr3 t

/-- The leading-punctuation strip loop (lines 277-281): emitted head tokens
in strip order, plus the remaining token. -/
def headStripGo : List Char → List (List Char) × List Char
  | [] => ([], [])
  | c :: cs =>
    if decide (c ∈ punctNoPeriod) && decide ((c :: cs) ∉ replaceKeys) then
      let h := headStripGo cs
      ([c] :: h.1, h.2)
    else ([], c :: cs)

/-- The trailing strip loop (lines 282-298): one iteration strips a
punctuation character, then an ellipsis (trimming extra periods), then a
lone period unless the token is an abbreviation (which breaks the loop).
Each non-breaking iteration strips at least one character, so one unit of
fuel per character suffices. -/
def tailStripGo : Nat → List Char → List (List Char) → List Char × List (List Char)
  | 0, t, tl => (t, tl)
  | fuel + 1, t, tl =>
    if (match t.getLast? with
        | some c => decide (c ∈ punctNoPeriod) || decide (c = '.')
        | none => false) && decide (t ∉ replaceKeys) then
      let s1 := if (match t.getLast? with
          | some c => decide (c ∈ punctNoPeriod)
          | none => false) then (t.dropLast, tl ++ [[t.getLastD ' ']]) else (t, tl)
      let s2 := if sfx "...".data s1.1 then
          (((s1.1.take (s1.1.length - 3)).reverse.dropWhile (fun c => c = '.')).reverse,
            s1.2 ++ ["...".data])
        else s1
      if s2.1.getLastD ' ' = '.' then
        if isAbbrev s2.1 then (s2.1, s2.2)
        else tailStripGo fuel s2.1.dropLast (s2.2 ++ [[('.' : Char)]])
      else tailStripGo fuel s2.1 s2.2
    else (t, tl)

/-- Lines 276-301 for one raw token: heads in strip order, the remaining
core (if nonempty), then the tail in reverse strip order. -/
def stripToken (t : List Char) : List (List Char) :=
  let hs := headStripGo t
  let ts := tailStripGo (hs.2.length + 1) hs.2 []
  hs.1 ++ (if ts.1 ≠ [] then [ts.1] else []) ++ ts.2.reverse

/-- The sentence-ending tokens of line 304. -/
def sentTerm : List (List Char) :=
  ["...".data, ".".data, "!".data, "?".data, "END-OF-SENTENCE".data]

/-- The continuation tokens of line 307 (trailing parentheses and quotes
are pulled into the closing sentence). -/
def sentCont : List (List Char) :=
  sentTerm ++ [")".data, [apos], [dquote], "”".data, "’".data]

/-- The segmentation loop of lines 302-313: on a terminal token, advance
through the continuation run, close the sentence (dropping the
`END-OF-SENTENCE` sentinel), and continue; trailing tokens form the last
sentence.  Each step consumes at least one token. -/
def segmentGo : Nat → List (List Char) → List (List Char) → List (List (List Char))
  | _, pending, [] => [pending]
  | 0, pending, rest => [pending ++ rest]
  | fuel + 1, pending, tok :: rest =>
    if decide (tok ∈ sentTerm) then
      let sp := (tok :: rest).span (fun u => decide (u ∈ sentCont))
      ((pending ++ sp.1).filter (fun u => decide (u ≠ "END-OF-SENTENCE".data))) ::
        segmentGo fuel [] sp.2
    else segmentGo fuel (pending ++ [tok]) rest

/-- `RE_SARCASM.sub("(!)", s)` for the pattern `\( ?\! ?\)`, longest
variant first (greedy optional spaces). -/
def sarcasmGo : Nat → List Char → List Char
  | _, [] => []
  | 0, s => s
  | fuel + 1, c :: rest =>
    if pfx "( ! )".data (c :: rest) then "(!)".data ++ sarcasmGo fuel ((c :: rest).drop 5)
    else if pfx "( !)".data (c :: rest) then "(!)".data ++ sarcasmGo fuel ((c :: rest).drop 4)
    else if pfx "(! )".data (c :: rest) then "(!)".data ++ sarcasmGo fuel ((c :: rest).drop 4)
    else if pfx "(!)".data (c :: rest) then "(!)".data ++ sarcasmGo fuel ((c :: rest).drop 3)
    else c :: sarcasmGo fuel rest

/-- The emoticon glyphs in table order (see the module note on set order). -/
def emoGlyphs : List (List Char) :=
  ((EMOTICONS.map (fun e => e.2)).flatten).map String.data

/-- Match one glyph whose characters may be separated by single optional
(greedy) spaces; returns the remaining input.  Glyphs never contain a
space, so consuming the optional space exactly when the character after it
is the next glyph character realizes the regex backtracking. -/
def emoMatchGlyph : List Char → List Char → Option (List Char)
  | [], input => some input
  | g :: gs, input =>
    match input with
    | c :: rest =>
      if c = g then
        match gs with
        | [] => some rest
        | g2 :: _ =>
          match rest with
          | ' ' :: c2 :: rest2 =>
            if c2 = g2 then emoMatchGlyph gs (c2 :: rest2) else emoMatchGlyph gs rest
          | _ => emoMatchGlyph gs rest
      else none
    | [] => none

/-- Try the glyph alternatives in order at the current position; a matched
glyph must be followed by whitespace (re-emitted, part of the match) or the
end of the input; the replacement is the glyph without interior spaces. -/
def emoFindGlyph : List (List Char) → List Char → Option (List Char × List Char)
  | [], _ => none
  | g :: gl, input =>
    match emoMatchGlyph g input with
    | some rest =>
      match rest with
      | [] => some (g, [])
      | c :: rest2 =>
        if isPySpace c then some (g ++ [c], rest2) else emoFindGlyph gl input
    | none => emoFindGlyph gl input

/-- `RE_EMOTICONS.sub(...)` (lines 316-317): glue padded emoticon glyphs
back together, scanning left to right. -/
def emoticonGo : Nat → List Char → List Char
  | _, [] => []
  | 0, s => s
  | fuel + 1, c :: rest =>
    match emoFindGlyph emoGlyphs (c :: rest) with
    | some (repl, remaining) => repl ++ emoticonGo fuel remaining
    | none => c :: emoticonGo fuel rest

/-- `find_tokens(string)` (lines 242-318) with the default punctuation,
abbreviations, contraction table and paragraph-break pattern. -/
def findTokens (s : List Char) : List (List Char) :=
  let s1 := replaceAllPairs contractionPairs s
  let s2 := replaceAllPairs quotePads s1
  let s3 := replaceSub ['\r', '\n'] ['\n'] s2
  let s4 := linebreakGo false s3
  let s5 := wsCollapseGo false s4
  let toks := (((s5.splitOn ' ').filter (fun t => decide (t ≠ []))).map stripToken).flatten
  let sens := segmentGo (toks.length + 1) [] toks
  let sens := (sens.filter (fun sen => decide (sen ≠ []))).map
    (fun sen => [(' ' : Char)].intercalate sen)
  (sens.map (fun sen => sarcasmGo (sen.length + 1) sen)).map
    (fun sen => emoticonGo (sen.length + 1) sen)

/-- **C9.** With the default tables, `find_tokens` splits the sentence-final
period into its own token unless the word is a recognized abbreviation:
`"The cat sat on the mat."` gives exactly the single sentence
`"The cat sat on the mat ."`, and `"Mr. Smith arrived."` gives exactly
`"Mr. Smith arrived ."` with `Mr.` kept as one token. -/
theorem C9_find_tokens :
    findTokens "The cat sat on the mat.".data = ["The cat sat on the mat .".data] ∧
    findTokens "Mr. Smith arrived.".data = ["Mr. Smith arrived .".data] := by
  constructor
  · decide
  · decide
